import Mathlib

/-!
Verification of the Qynit.PulseGen core (schedule engine and waveform
synthesizer) against its natural-language specification.

Shallow embedding conventions:

* Rust `f64` values are modelled by `ℚ`.  The quantity wrapper `Time`
  (a `NotNan<f64>` in the program, whose only non-finite value produced by
  the code is `Time::INFINITY`) is modelled by the inductive `PulseGen.Time`
  with a finite (`fin`) and a positive-infinite (`inf`) constructor.
* `Complex64` is modelled by `PulseGen.Cplx`, a pair of rationals with
  componentwise addition and the usual complex multiplication.
* The transcendental pieces (`f64::cos`, `f64::sin` and the constant `TAU`,
  and the external `Shape::sample_array` capability) have no rational
  closed form; they are carried as explicit parameters `rcos rsin : ℚ → ℚ`,
  `tau : ℚ` and `shapeFn : ℕ → ℚ → ℚ`.  Every theorem quantifies over them,
  so nothing proved depends on their actual values.
* `float_cmp::approx_eq!(f64, a, b, epsilon = e)` is modelled by
  `|a - b| ≤ e` (the epsilon part of the margin; the ULP component has no
  meaning for exact rationals).
* Rust panics (out-of-range slicing, failed asserts) are modelled by
  `Option`/`Except`: `none` means the program aborts.
* `hashbrown::HashMap`s whose entries are only ever folded with
  commutative operations, or iterated, are modelled by association lists.
-/

namespace PulseGen

/-- Model of the `Time` quantity: a finite rational or positive infinity
(`Time::INFINITY`, the sentinel for an unbounded `max_duration`).  The
program never produces negative infinity or NaN on the paths modelled
here (builders validate finiteness; subtraction of `inf` from a finite
time never happens), so `fin q - inf` is given the junk value `inf`. -/
inductive Time where
  | fin (q : ℚ)
  | inf
  deriving DecidableEq, Repr

namespace Time

/-- The order on `Time`: finite values compare as rationals and `inf` is
the top element. -/
def le : Time → Time → Prop
  | fin a, fin b => a ≤ b
  | _, inf => True
  | inf, fin _ => False

instance : LE Time := ⟨Time.le⟩

instance decLe : ∀ a b : Time, Decidable (a ≤ b)
  | fin a, fin b => inferInstanceAs (Decidable (a ≤ b))
  | fin _, inf => .isTrue trivial
  | inf, inf => .isTrue trivial
  | inf, fin _ => .isFalse id

instance : LinearOrder Time where
  le_refl a := by
    cases a with
    | fin q => exact @le_refl ℚ _ q
    | inf => exact trivial
  le_trans a b c hab hbc := by
    cases a <;> cases b <;> cases c
    case fin.fin.fin => exact @le_trans ℚ _ _ _ _ hab hbc
    case inf.fin.fin => exact hab.elim
    case inf.inf.fin => exact hbc.elim
    case fin.inf.fin => exact hbc.elim
    all_goals exact trivial
  le_antisymm a b hab hba := by
    cases a <;> cases b
    case fin.fin => exact congrArg fin (@le_antisymm ℚ _ _ _ hab hba)
    case fin.inf => exact hba.elim
    case inf.fin => exact hab.elim
    case inf.inf => rfl
  le_total a b := by
    cases a <;> cases b
    case fin.fin => exact @le_total ℚ _ _ _
    all_goals first | exact Or.inl trivial | exact Or.inr trivial
  decidableLE := decLe

instance : Add Time :=
  ⟨fun a b =>
    match a, b with
    | fin x, fin y => fin (x + y)
    | _, _ => inf⟩

instance : Sub Time :=
  ⟨fun a b =>
    match a, b with
    | fin x, fin y => fin (x - y)
    | _, _ => inf⟩

instance : Zero Time := ⟨fin 0⟩

/-- `Time::INFINITY`. -/
def INFINITY : Time := inf

/-- `Time::ZERO`. -/
def ZERO : Time := fin 0

/-- `t.value().is_finite()`. -/
def isFinite : Time → Bool
  | fin _ => true
  | inf => false

end Time

/-- Model of `numpy::Complex64` (componentwise rational parts). -/
@[ext]
structure Cplx where
  re : ℚ
  im : ℚ
  deriving DecidableEq, Repr

namespace Cplx

instance : Add Cplx := ⟨fun a b => ⟨a.re + b.re, a.im + b.im⟩⟩

instance : Mul Cplx := ⟨fun a b => ⟨a.re * b.re - a.im * b.im, a.re * b.im + a.im * b.re⟩⟩

instance : Zero Cplx := ⟨⟨0, 0⟩⟩

/-- `Complex64::i()`. -/
def I : Cplx := ⟨0, 1⟩

/-- Multiplication by a real (`f64`) scalar, as in `amp * multiplier`. -/
def scale (k : ℚ) (z : Cplx) : Cplx := ⟨k * z.re, k * z.im⟩

end Cplx

/-- The external `Shape` capability is value-equal and hashable; it is
modelled by an opaque identifier.  Its pointwise values enter the
development only through the `shapeFn` parameter of the sampler. -/
abbrev Shape : Type := ℕ

/-- `ChannelId` (an interned string, modelled by an opaque identifier). -/
abbrev ChannelId : Type := ℕ

/-- `pulse.rs`: `struct Envelope { shape, width, plateau }`. -/
structure Envelope where
  shape : Option Shape
  width : Time
  plateau : Time
  deriving DecidableEq

/-- `pulse.rs` `Envelope::new`: the constructor canonicalizes its
arguments — if `shape` is `None` it folds `width` into `plateau`
(`plateau += width; width = 0`), and afterwards a zero `width` clears the
shape (`if width.value() == 0.0 { shape = None }`). -/
def Envelope.new (shape0 : Option Shape) (width0 plateau0 : Time) : Envelope :=
  let plateau := if shape0.isNone then plateau0 + width0 else plateau0
  let width := if shape0.isNone then Time.fin 0 else width0
  let shape := if width = Time.fin 0 then none else shape0
  { shape := shape, width := width, plateau := plateau }

/-! ## `pulse.rs`: pulse lists and the builder

Pulse times, tolerances and frequencies are `f64` values inside `Time` /
`Frequency` wrappers; on the pulse-list paths the program only ever
handles finite values (`Time::INFINITY` exists solely as the
`max_duration` sentinel of the scheduler), so they are modelled by `ℚ`
directly. -/

/-- `pulse.rs` `struct ListBin`. -/
structure ListBin where
  envelope : Envelope
  globalFreq : ℚ
  localFreq : ℚ
  deriving DecidableEq

/-- `pulse.rs` `struct PulseAmplitude`. -/
structure PulseAmplitude where
  amp : Cplx
  drag : Cplx
  deriving DecidableEq, Repr

/-- `impl Add for PulseAmplitude`: componentwise. -/
instance : Add PulseAmplitude := ⟨fun a b => ⟨a.amp + b.amp, a.drag + b.drag⟩⟩

instance : Zero PulseAmplitude := ⟨⟨0, 0⟩⟩

/-- `impl Mul<f64> for PulseAmplitude`. -/
def PulseAmplitude.mulF (a : PulseAmplitude) (k : ℚ) : PulseAmplitude :=
  ⟨a.amp.scale k, a.drag.scale k⟩

/-- `float_cmp::approx_eq!(f64, a, b, epsilon = eps)`: `|a - b| ≤ eps`. -/
def approxEq (a b eps : ℚ) : Prop := |a - b| ≤ eps

instance (a b eps : ℚ) : Decidable (approxEq a b eps) :=
  inferInstanceAs (Decidable (|a - b| ≤ eps))

/-- `pulse.rs` `struct PulseList` (the `HashMap<ListBin, Vec<...>>` as an
association list). -/
structure PulseList where
  items : List (ListBin × List (ℚ × PulseAmplitude))

/-- `pulse.rs` `struct PulseListBuilder`. -/
structure PulseListBuilder where
  items : List (ListBin × List (ℚ × PulseAmplitude))
  ampTolerance : ℚ
  timeTolerance : ℚ

/-- `self.items.entry(bin).or_default().push(entry)` on the association
list: append to the bin's vector, creating the bin if absent. -/
def entryPush (items : List (ListBin × List (ℚ × PulseAmplitude))) (bin : ListBin)
    (e : ℚ × PulseAmplitude) : List (ListBin × List (ℚ × PulseAmplitude)) :=
  match items with
  | [] => [(bin, [e])]
  | (b, v) :: rest =>
    if b = bin then (b, v ++ [e]) :: rest else (b, v) :: entryPush rest bin e

/-- `Complex64::from_polar(r, theta)`, with `cos`/`sin` as the
uninterpreted parameters `rcos`/`rsin`. -/
def fromPolar (rcos rsin : ℚ → ℚ) (r theta : ℚ) : Cplx :=
  ⟨r * rcos theta, r * rsin theta⟩

/-- `pulse.rs` `PulseListBuilder::push`.  `tau` stands for the real
constant `TAU`. -/
def PulseListBuilder.push (tau : ℚ) (rcos rsin : ℚ → ℚ) (b : PulseListBuilder)
    (envelope : Envelope) (globalFreq localFreq : ℚ) (time : ℚ)
    (amplitude dragCoef phase : ℚ) : PulseListBuilder :=
  if approxEq amplitude 0 b.ampTolerance then b
  else
    let bin : ListBin := ⟨envelope, globalFreq, localFreq⟩
    let amp := fromPolar rcos rsin amplitude (tau * phase)
    let drag := (amp * Cplx.I).scale dragCoef
    { b with items := entryPush b.items bin (time, ⟨amp, drag⟩) }

/-- The inner coalescing loop of `PulseListBuilder::build`: `acc` is the
current anchor `pulses[i]`; an entry within `time_tolerance` of the anchor
is merged into it by summation (the anchor's time survives), otherwise the
anchor is emitted and the entry becomes the new anchor. -/
def coalesceGo (tol : ℚ) (acc : ℚ × PulseAmplitude) :
    List (ℚ × PulseAmplitude) → List (ℚ × PulseAmplitude)
  | [] => [acc]
  | q :: rest =>
    if approxEq acc.1 q.1 tol then coalesceGo tol (acc.1, acc.2 + q.2) rest
    else acc :: coalesceGo tol q rest

/-- The in-place dedup of `PulseListBuilder::build` on one bin's vector
(after sorting). -/
def coalesce (tol : ℚ) : List (ℚ × PulseAmplitude) → List (ℚ × PulseAmplitude)
  | [] => []
  | p :: rest => coalesceGo tol p rest

/-- `pulse.rs` `PulseListBuilder::build`: per bin, sort by time, then
coalesce entries within `time_tolerance`.  (`sort_unstable_by_key` sorts
by the time key leaving the order of equal keys unspecified; `mergeSort`
realizes one such permutation.) -/
def PulseListBuilder.build (b : PulseListBuilder) : PulseList :=
  { items := b.items.map fun bv =>
      (bv.1, coalesce b.timeTolerance (bv.2.mergeSort fun x y => decide (x.1 ≤ y.1))) }

/-- Sum of the amplitudes of a bin vector (the merge operation of the
builder, folded). -/
def sumAmps (l : List (ℚ × PulseAmplitude)) : PulseAmplitude :=
  l.foldr (fun p acc => p.2 + acc) 0

/-- A concrete bin (rectangular envelope, both frequencies zero). -/
def c3Bin : ListBin := ⟨⟨none, Time.fin 0, Time.fin 0⟩, 0, 0⟩

/-- A concrete builder state: one bin holding a single entry, with
`time_tolerance = 2`. -/
def c3Builder : PulseListBuilder :=
  ⟨[(c3Bin, [(0, ⟨⟨1, 0⟩, ⟨0, 0⟩⟩)])], 0, 2⟩

/-! ## `pulse.rs`: the waveform sampler

`sample_pulse_list` and its helpers.  The quantity type `AlignedIndex`
lives in the external `quant` module (not part of this repository's
sources), so it is modelled from the specification (§3, §4.1). -/

/-- The `f64` value of a `Time` on the sampler path.  Envelope geometry and
pulse times are always finite there; the unreachable `inf` is mapped
to `0`. -/
def Time.toRat : Time → ℚ
  | .fin q => q
  | .inf => 0

/-- Modelled from the spec: `AlignedIndex::new(t, rate, level)` "snaps
time `t·rate` down to the nearest integer multiple of `2^(-level)`
samples"; this is its value in samples. -/
def alignedValue (t rate : ℚ) (level : ℤ) : ℚ :=
  (⌊t * rate * (2 : ℚ) ^ level⌋ : ℚ) / (2 : ℚ) ^ level

/-- Modelled from the spec: `ceil()` "returns the next integer sample ≥
aligned position". -/
def alignedCeil (t rate : ℚ) (level : ℤ) : ℤ :=
  ⌈alignedValue t rate level⌉

/-- Modelled from the spec: `index_offset()` "returns the (fractional)
sample-count difference between the aligned position and the integer
ceiling" — the nonnegative fraction `ceil - aligned`, so that buffer
index `ceil + j` lies `(index_offset + j)` samples after the aligned
pulse start. -/
def alignedIndexOffset (t rate : ℚ) (level : ℤ) : ℚ :=
  (alignedCeil t rate level : ℚ) - alignedValue t rate level

/-- `Shape::sample_array(x0, dx, out)` writing `shape(x0 + i·dx)` into a
buffer of length `n`; the shape's pointwise values are the uninterpreted
parameter `shapeFn`. -/
def sampleArray (shapeFn : Shape → ℚ → ℚ) (shape : Shape) (x0 dx : ℚ) (n : ℕ) : List ℚ :=
  (List.range n).map fun i => shapeFn shape (x0 + i * dx)

/-- `pulse.rs` `fn get_envelope` (the cache is semantically transparent:
memoization of a pure function).  `none` models the panics of
`envelope[..plateau_start_index]`, `envelope[plateau_start_index..
plateau_end_index]` and `envelope[plateau_end_index..]` when the computed
indices do not satisfy `plateau_start ≤ plateau_end ≤ length`. -/
def getEnvelope (shapeFn : Shape → ℚ → ℚ) (shape : Shape)
    (width plateau indexOffset sampleRate : ℚ) : Option (List ℚ) :=
  let dt := 1 / sampleRate
  let tOffset := indexOffset * dt
  let t1 := width / 2 - tOffset
  let t2 := width / 2 + plateau - tOffset
  let t3 := width + plateau - tOffset
  let length := (⌈t3 * sampleRate⌉).toNat
  let plateauStartIndex := (⌈t1 * sampleRate⌉).toNat
  let plateauEndIndex := (⌈t2 * sampleRate⌉).toNat
  let x0 := -t1 / width
  let dx := dt / width
  if plateau = 0 then
    some (sampleArray shapeFn shape x0 dx length)
  else
    if plateauStartIndex ≤ plateauEndIndex ∧ plateauEndIndex ≤ length then
      let x2 := ((plateauEndIndex : ℚ) * dt - t2) / width
      some (sampleArray shapeFn shape x0 dx plateauStartIndex
        ++ List.replicate (plateauEndIndex - plateauStartIndex) 1
        ++ sampleArray shapeFn shape x2 dx (length - plateauEndIndex))
    else none

/-- The envelope values paired with the central-difference slopes used by
`mix_add_envelope` (`slope[i] = (env[i+1] - env[i-1])/2`, out-of-range
neighbours taken as `0`). -/
def envSlopes (env : List ℚ) : List (ℚ × ℚ) :=
  (List.range env.length).map fun i =>
    (env.getD i 0,
     ((if i < env.length - 1 then env.getD (i + 1) 0 else 0) -
      (if i > 0 then env.getD (i - 1) 0 else 0)) / 2)

/-- The lockstep loop of `mix_add_envelope`: `izip!` stops at the shorter
of the waveform and the envelope, leaving the rest of the waveform
untouched. -/
def mixZip (amplitude dragAmp : Cplx) :
    List Cplx → List (ℚ × ℚ) → Cplx → Cplx → List Cplx
  | [], _, _, _ => []
  | wf, [], _, _ => wf
  | y :: wf, es :: rest, carrier, dcarrier =>
    (y + carrier * ((Cplx.scale es.1 amplitude) + (Cplx.scale es.2 dragAmp))) ::
      mixZip amplitude dragAmp wf rest (carrier * dcarrier) dcarrier

/-- `pulse.rs` `fn mix_add_envelope`. -/
def mixAddEnvelope (rcos rsin : ℚ → ℚ) (waveform : List Cplx) (envelope : List ℚ)
    (amplitude dragAmp : Cplx) (phase0 dphase : ℚ) : List Cplx :=
  mixZip amplitude dragAmp waveform (envSlopes envelope)
    (fromPolar rcos rsin 1 phase0) (fromPolar rcos rsin 1 dphase)

/-- The loop of `mix_add_plateau`. -/
def mixAddPlateauGo : List Cplx → Cplx → Cplx → List Cplx
  | [], _, _ => []
  | y :: rest, carrier, dcarrier => (y + carrier) :: mixAddPlateauGo rest (carrier * dcarrier) dcarrier

/-- `pulse.rs` `fn mix_add_plateau`. -/
def mixAddPlateau (rcos rsin : ℚ → ℚ) (waveform : List Cplx) (amplitude : Cplx)
    (phase dphase : ℚ) : List Cplx :=
  mixAddPlateauGo waveform (fromPolar rcos rsin 1 phase * amplitude)
    (fromPolar rcos rsin 1 dphase)

/-- The body of the inner loop of `sample_pulse_list` for one
`(time, PulseAmplitude)` entry.  `none` models the panics:
`&mut waveform[i_start..]` when `i_start > waveform.len()`, and
`&mut waveform[..i_plateau]` (shapeless path) when the plateau extends
past the end of the remaining buffer.  The `as usize` cast of the aligned
ceiling saturates negative values to `0` (`Int.toNat`). -/
def sampleEntry (tau : ℚ) (rcos rsin : ℚ → ℚ) (shapeFn : Shape → ℚ → ℚ)
    (sampleRate delay : ℚ) (alignLevel : ℤ) (bin : ListBin)
    (waveform : List Cplx) (time : ℚ) (pa : PulseAmplitude) : Option (List Cplx) :=
  let tStart := time + delay
  let iStart : ℤ := alignedCeil tStart sampleRate alignLevel
  let indexOffset := alignedIndexOffset tStart sampleRate alignLevel
  let globalFreq := bin.globalFreq
  let localFreq := bin.localFreq
  let totalFreq := globalFreq + localFreq
  let dt := 1 / sampleRate
  let phase0 := globalFreq * ((iStart : ℚ) * dt - delay) + localFreq * indexOffset * dt
  let dphase := totalFreq * dt
  let phase0 := phase0 * tau
  let dphase := dphase * tau
  let idx := iStart.toNat
  if idx ≤ waveform.length then
    let suffix := waveform.drop idx
    match bin.envelope.shape with
    | some shape =>
      match getEnvelope shapeFn shape bin.envelope.width.toRat bin.envelope.plateau.toRat
          indexOffset sampleRate with
      | none => none
      | some env =>
        let drag := pa.drag.scale sampleRate
        some (waveform.take idx ++ mixAddEnvelope rcos rsin suffix env pa.amp drag phase0 dphase)
    | none =>
      let iPlateau := (⌈bin.envelope.plateau.toRat * sampleRate⌉).toNat
      if iPlateau ≤ suffix.length then
        some (waveform.take idx ++
          mixAddPlateau rcos rsin (suffix.take iPlateau) pa.amp phase0 dphase ++
          suffix.drop iPlateau)
      else none
  else none

/-- The inner loop of `sample_pulse_list` over one bin's entries. -/
def sampleItems (tau : ℚ) (rcos rsin : ℚ → ℚ) (shapeFn : Shape → ℚ → ℚ)
    (sampleRate delay : ℚ) (alignLevel : ℤ) (bin : ListBin) :
    List (ℚ × PulseAmplitude) → List Cplx → Option (List Cplx)
  | [], waveform => some waveform
  | (t, pa) :: rest, waveform =>
    match sampleEntry tau rcos rsin shapeFn sampleRate delay alignLevel bin waveform t pa with
    | none => none
    | some waveform => sampleItems tau rcos rsin shapeFn sampleRate delay alignLevel bin
        rest waveform

/-- The outer loop of `sample_pulse_list` over the bins. -/
def sampleBins (tau : ℚ) (rcos rsin : ℚ → ℚ) (shapeFn : Shape → ℚ → ℚ)
    (sampleRate delay : ℚ) (alignLevel : ℤ) :
    List (ListBin × List (ℚ × PulseAmplitude)) → List Cplx → Option (List Cplx)
  | [], waveform => some waveform
  | (bin, items) :: rest, waveform =>
    match sampleItems tau rcos rsin shapeFn sampleRate delay alignLevel bin items waveform with
    | none => none
    | some waveform => sampleBins tau rcos rsin shapeFn sampleRate delay alignLevel rest waveform

/-- `pulse.rs` `fn sample_pulse_list`. -/
def samplePulseList (tau : ℚ) (rcos rsin : ℚ → ℚ) (shapeFn : Shape → ℚ → ℚ)
    (list : List (ListBin × List (ℚ × PulseAmplitude))) (length : ℕ)
    (sampleRate delay : ℚ) (alignLevel : ℤ) : Option (List Cplx) :=
  sampleBins tau rcos rsin shapeFn sampleRate delay alignLevel list
    (List.replicate length 0)

/-! ## `pulse.rs`: crosstalk merging and the `Sampler` -/

/-- The scaled iterator `(time, amp * multiplier)` of `merge_and_sample`. -/
def scaleItems (multiplier : ℚ) (items : List (ℚ × PulseAmplitude)) :
    List (ℚ × PulseAmplitude) :=
  items.map fun tp => (tp.1, tp.2.mulF multiplier)

/-- `merged.entry(bin).or_default().push(iterator)` on the association
list of per-bin iterator collections. -/
def entryPushIter (merged : List (ListBin × List (List (ℚ × PulseAmplitude)))) (bin : ListBin)
    (its : List (ℚ × PulseAmplitude)) : List (ListBin × List (List (ℚ × PulseAmplitude))) :=
  match merged with
  | [] => [(bin, [its])]
  | (b, v) :: rest =>
    if b = bin then (b, v ++ [its]) :: rest else (b, v) :: entryPushIter rest bin its

/-- One selection step of the k-way merge: the first stream whose head is
minimal with respect to `lt` (`kmerge_by` yields the earlier stream on
ties); empty streams are dropped. -/
def pickMin {α : Type} (lt : α → α → Bool) : List (List α) → Option (α × List (List α))
  | [] => none
  | [] :: rest => pickMin lt rest
  | (x :: xs) :: rest =>
    match pickMin lt rest with
    | none => some (x, [xs])
    | some (y, rest') => if lt y x then some (y, (x :: xs) :: rest') else some (x, xs :: rest)

/-- The k-way merge loop, fuelled by the total number of elements (each
step removes exactly one element, so the fuel is never exhausted when
initialized with the total length). -/
def kmergeGo {α : Type} (lt : α → α → Bool) : ℕ → List (List α) → List α
  | 0, _ => []
  | fuel + 1, ls =>
    match pickMin lt ls with
    | none => []
    | some (x, rest) => x :: kmergeGo lt fuel rest

/-- `itertools` `kmerge_by` on the per-bin iterator collections. -/
def kmergeBy {α : Type} (lt : α → α → Bool) (ls : List (List α)) : List α :=
  kmergeGo lt (ls.map List.length).sum ls

/-- `pulse.rs` `fn merge_and_sample`: per output channel, merge the scaled
input pulse lists bin by bin (skipping zero multipliers), k-way merge each
bin's streams by time, coalesce entries within `time_tolerance`, and
sample the merged stream. -/
def mergeAndSample (tau : ℚ) (rcos rsin : ℚ → ℚ) (shapeFn : Shape → ℚ → ℚ)
    (lists : List (ℚ × PulseList)) (length : ℕ) (sampleRate delay : ℚ)
    (alignLevel : ℤ) (timeTolerance : ℚ) : Option (List Cplx) :=
  let merged := lists.foldl
    (fun acc ml =>
      if ml.1 = 0 then acc
      else ml.2.items.foldl (fun acc bi => entryPushIter acc bi.1 (scaleItems ml.1 bi.2)) acc)
    []
  let merged := merged.map fun bi =>
    (bi.1, coalesce timeTolerance (kmergeBy (fun a b => decide (a.1 < b.1)) bi.2))
  samplePulseList tau rcos rsin shapeFn merged length sampleRate delay alignLevel

/-- `pulse.rs` `struct Channel`. -/
structure Channel where
  pulses : PulseList
  length : ℕ
  sampleRate : ℚ
  alignLevel : ℤ
  delay : ℚ

/-- `pulse.rs` `struct Crosstalk` (channel names are interned strings,
modelled like `ChannelId` by opaque identifiers). -/
structure Crosstalk where
  matrix : List (List ℚ)
  names : List ChannelId

/-- `pulse.rs` `struct Sampler` (the channel `HashMap` as an association
list with unique keys). -/
structure Sampler where
  channels : List (ChannelId × Channel)
  crosstalk : Option Crosstalk

/-- `self.channels[name]` (`none` models the missing-key panic). -/
def lookupChannel (chs : List (ChannelId × Channel)) (n : ChannelId) : Option Channel :=
  match chs with
  | [] => none
  | (k, c) :: rest => if k = n then some c else lookupChannel rest n

/-- The `row.iter().zip(names)` gathering of `(multiplier, &in_channel.pulses)`. -/
def collectLists (chs : List (ChannelId × Channel)) :
    List (ℚ × ChannelId) → Option (List (ℚ × PulseList))
  | [] => some []
  | (m, n) :: rest =>
    match lookupChannel chs n, collectLists chs rest with
    | some c, some r => some ((m, c.pulses) :: r)
    | _, _ => none

/-- The crosstalk branch of `Sampler::sample`, row by row. -/
def sampleRows (tau : ℚ) (rcos rsin : ℚ → ℚ) (shapeFn : Shape → ℚ → ℚ)
    (chs : List (ChannelId × Channel)) (names : List ChannelId) (timeTolerance : ℚ) :
    List (List ℚ × ChannelId) → Option (List (ChannelId × Option (List Cplx)))
  | [] => some []
  | (row, outName) :: rest =>
    match lookupChannel chs outName with
    | none => none
    | some outChannel =>
      match collectLists chs (row.zip names) with
      | none => none
      | some lists =>
        match sampleRows tau rcos rsin shapeFn chs names timeTolerance rest with
        | none => none
        | some r =>
          some ((outName,
            mergeAndSample tau rcos rsin shapeFn lists outChannel.length
              outChannel.sampleRate outChannel.delay outChannel.alignLevel timeTolerance) :: r)

/-- `pulse.rs` `Sampler::sample`.  The outer `Option` models the
missing-channel panics of the crosstalk path; each channel's waveform is
itself an `Option` because `sample_pulse_list` can panic.  The per-channel
parallel fan-out is semantically a map. -/
def Sampler.sample (tau : ℚ) (rcos rsin : ℚ → ℚ) (shapeFn : Shape → ℚ → ℚ)
    (s : Sampler) (timeTolerance : ℚ) : Option (List (ChannelId × Option (List Cplx))) :=
  match s.crosstalk with
  | some ct =>
    sampleRows tau rcos rsin shapeFn s.channels ct.names timeTolerance (ct.matrix.zip ct.names)
  | none =>
    some (s.channels.map fun nc =>
      (nc.1, samplePulseList tau rcos rsin shapeFn nc.2.pulses.items nc.2.length
        nc.2.sampleRate nc.2.delay nc.2.alignLevel))

/-- The per-entry fit condition of the amended C2: the aligned start index
is within the buffer, and (shapeless path) the plateau does not extend
past the end; in the shaped path the envelope construction must not
itself panic. -/
def entryFits (shapeFn : Shape → ℚ → ℚ) (sampleRate delay : ℚ) (alignLevel : ℤ)
    (bin : ListBin) (length : ℕ) (time : ℚ) : Prop :=
  let idx := (alignedCeil (time + delay) sampleRate alignLevel).toNat
  idx ≤ length ∧
    match bin.envelope.shape with
    | some shape =>
      getEnvelope shapeFn shape bin.envelope.width.toRat bin.envelope.plateau.toRat
        (alignedIndexOffset (time + delay) sampleRate alignLevel) sampleRate ≠ none
    | none => (⌈bin.envelope.plateau.toRat * sampleRate⌉).toNat ≤ length - idx

/-- A one-sample channel with an empty pulse list (the C7 witness input). -/
def c7EmptyChannel : Channel :=
  { pulses := { items := [] }, length := 1, sampleRate := 1, alignLevel := 0, delay := 0 }

/-- The channel of the C7 counterexample: one rectangular bin with two
unit pulses one sample apart, three output samples at rate 1. -/
def c7Channel : Channel :=
  { pulses := { items := [(⟨⟨none, Time.fin 0, Time.fin 1⟩, 0, 0⟩,
      [(0, ⟨⟨1, 0⟩, ⟨0, 0⟩⟩), (1, ⟨⟨1, 0⟩, ⟨0, 0⟩⟩)])] },
    length := 3, sampleRate := 1, alignLevel := 0, delay := 0 }

/-! ## `schedule.rs`: the measure / arrange wrapper -/

/-- `Alignment` (`end'` models the `End` variant, the builder default). -/
inductive Alignment where
  | start
  | center
  | end'
  | stretch
  deriving DecidableEq, Repr

/-- `schedule.rs`: `struct ElementCommon`. -/
structure ElementCommon where
  margin : Time × Time
  alignment : Alignment
  phantom : Bool
  duration : Option Time
  maxDuration : Time
  minDuration : Time

/-- `schedule.rs` `fn clamp_duration`: `duration.min(max_duration).max(min_duration)`. -/
def clampDuration (duration minDuration maxDuration : Time) : Time :=
  max (min duration maxDuration) minDuration

namespace ElementCommon

/-- `ElementCommon::total_margin`: `margin.0 + margin.1`. -/
def totalMargin (c : ElementCommon) : Time := c.margin.1 + c.margin.2

/-- `ElementCommon::clamp_min_max_duration`. -/
def clampMinMaxDuration (c : ElementCommon) : Time × Time :=
  let maxDuration := clampDuration (c.duration.getD Time.INFINITY) c.minDuration c.maxDuration
  let minDuration := clampDuration (c.duration.getD Time.ZERO) c.minDuration c.maxDuration
  (minDuration, maxDuration)

end ElementCommon

/-- `schedule.rs` `struct MeasuredElement`, restricted to the two fields the
wrapper computes (the element reference and variant data are not needed by
the claims; the variant's desired inner duration — `result.0` of
`element.variant.measure()` — is supplied to `measure` as an argument). -/
structure MeasuredElement where
  unclippedDuration : Time
  duration : Time
  deriving DecidableEq, Repr

/-- `schedule.rs` `fn measure` (the wrapper applying margins and clamps).
`none` models the `assert!(total_margin.value().is_finite())` panic. -/
def measure (common : ElementCommon) (inner : Time) : Option MeasuredElement :=
  let totalMargin := common.totalMargin
  if totalMargin.isFinite = false then none
  else
    let mm := common.clampMinMaxDuration
    let unclippedDuration := max (inner + totalMargin) Time.ZERO
    let duration := clampDuration unclippedDuration mm.1 mm.2 + totalMargin
    let duration := max duration Time.ZERO
    some { unclippedDuration := unclippedDuration, duration := duration }

/-- `schedule.rs` `struct ScheduleOptions`. -/
structure ScheduleOptions where
  timeTolerance : Time
  allowOversize : Bool

/-- Errors an arrange can produce: the oversize `bail!`s, a panic
(failed assert), or any error raised by the element variant's own
`arrange` (e.g. variant mismatch). -/
inductive ArrangeErr where
  | oversize
  | panic
  | variantErr
  deriving DecidableEq, Repr

/-- `schedule.rs` `struct ArrangedElement` (element reference and variant
data omitted as in `MeasuredElement`). -/
structure ArrangedElement where
  innerTime : Time
  innerDuration : Time
  deriving DecidableEq, Repr

/-- `schedule.rs` `fn arrange` (the wrapper).  `variantArrange` stands for
`element.variant.arrange(ctx)`, receiving the context's `final_duration`
and returning the variant's final inner size (`result.0`). -/
def arrange (measured : MeasuredElement) (common : ElementCommon) (time duration : Time)
    (options : ScheduleOptions) (variantArrange : Time → Except ArrangeErr Time) :
    Except ArrangeErr ArrangedElement :=
  let unclippedDuration := measured.unclippedDuration
  if duration < unclippedDuration - options.timeTolerance ∧ options.allowOversize = false then
    .error .oversize
  else
    let innerTime := time + common.margin.1
    if innerTime.isFinite = false then .error .panic
    else
      let mm := common.clampMinMaxDuration
      let totalMargin := common.totalMargin
      let innerDuration := max (duration - totalMargin) Time.ZERO
      let innerDuration := clampDuration innerDuration mm.1 mm.2
      if innerDuration + totalMargin < unclippedDuration - options.timeTolerance ∧
          options.allowOversize = false then
        .error .oversize
      else
        match variantArrange innerDuration with
        | .error e => .error e
        | .ok resultDuration =>
          .ok { innerTime := innerTime, innerDuration := resultDuration }

/-! ## `schedule/stack.rs`: measuring and arranging stacks -/

/-- `Direction`. -/
inductive Direction where
  | forward
  | backward
  deriving DecidableEq, Repr


/-- A stack child as seen through the `Measure` trait: its measured
duration (`measure()`) and its channel list (`channels()`). -/
structure Child where
  measure : Time
  channels : List ChannelId

/-- `HashMap::get` on the usage map modelled as an association list. -/
def usageLookup (d : List (ChannelId × Time)) (c : ChannelId) : Option Time :=
  match d with
  | [] => none
  | (k, v) :: rest => if k = c then some v else usageLookup rest c

/-- `HashMap::insert` on the usage map: replace the key's value or add the
entry. -/
def usageInsert (d : List (ChannelId × Time)) (c : ChannelId) (t : Time) :
    List (ChannelId × Time) :=
  match d with
  | [] => [(c, t)]
  | (k, v) :: rest => if k = c then (k, t) :: rest else (k, v) :: usageInsert rest c t

/-- `stack.rs` `enum ChannelUsage`. -/
inductive ChannelUsage where
  | single (t : Time)
  | multiple (d : List (ChannelId × Time))

/-- `stack.rs` `struct Helper`. -/
structure Helper where
  allChannels : List ChannelId
  usage : ChannelUsage

/-- `Helper::new`: a scalar when the stack has no channels, otherwise an
empty per-channel map. -/
def Helper.new (allChannels : List ChannelId) : Helper :=
  { allChannels := allChannels,
    usage := if allChannels.isEmpty then .single Time.ZERO else .multiple [] }

/-- `Helper::get_usage`. -/
def Helper.getUsage (h : Helper) (channels : List ChannelId) : Time :=
  match h.usage with
  | .single v => v
  | .multiple d =>
    (if channels.isEmpty then (d.map (·.2)).max?
     else (channels.filterMap (usageLookup d)).max?).getD Time.ZERO

/-- `Helper::update_usage`. -/
def Helper.updateUsage (h : Helper) (newDuration : Time) (channels : List ChannelId) :
    Helper :=
  let channels := if channels.isEmpty then h.allChannels else channels
  match h.usage with
  | .single _ => { h with usage := .single newDuration }
  | .multiple d =>
    { h with usage := .multiple (channels.foldl (fun d ch => usageInsert d ch newDuration) d) }

/-- `Helper::into_max_usage`. -/
def Helper.intoMaxUsage (h : Helper) : Time :=
  match h.usage with
  | .single v => v
  | .multiple d => ((d.map (·.2)).max?).getD Time.ZERO

/-- Stateful map over a list with explicit state passing (the closures
passed to `map_and_collect_by_direction` capture `helper` mutably). -/
def mapState {α σ β : Type} (f : α → σ → β × σ) : List α → σ → List β × σ
  | [], s => ([], s)
  | a :: l, s =>
    let bs := f a s
    let rest := mapState f l bs.2
    (bs.1 :: rest.1, rest.2)

/-- `stack.rs` `fn map_and_collect_by_direction`: map in the direction's
order but collect results in the original order (the closure in
`measure_stack` never fails, so the infallible version is modelled). -/
def mapAndCollectByDirection {α σ β : Type} (f : α → σ → β × σ) (direction : Direction)
    (l : List α) (s : σ) : List β × σ :=
  match direction with
  | .forward => mapState f l s
  | .backward =>
    let r := mapState f l.reverse s
    (r.1.reverse, r.2)

/-- `stack.rs` `fn measure_stack`. -/
def measureStack (children : List Child) (channels : List ChannelId)
    (direction : Direction) : Time × List Time :=
  let r := mapAndCollectByDirection
    (fun child helper =>
      let childChannels := child.channels
      let childDuration := child.measure
      let childOffset := Helper.getUsage helper childChannels
      (childOffset, Helper.updateUsage helper (childOffset + childDuration) childChannels))
    direction children (Helper.new channels)
  (r.2.intoMaxUsage, r.1)

/-- `stack.rs` `fn arrange_stack`. -/
def arrangeStack (children : List (Child × Time)) (finalDuration : Time)
    (direction : Direction) : List (Child × Time × Time) :=
  children.map fun co =>
    let childDuration := co.1.measure
    let finalOffset :=
      match direction with
      | .forward => co.2
      | .backward => finalDuration - co.2 - childDuration
    (co.1, finalOffset, childDuration)

/-- The stack measuring pass as described by the specification (§4.6) and
claim C5, for comparison with `measureStack`: per-channel usage is a
partial map from channels to times; a child's offset is the maximum
recorded usage over its channels (over all of the stack's channels when
the child declares none), defaulting to `0` when nothing relevant is
recorded; afterwards the usage of each of the child's channels (or of all
the stack's channels) becomes `offset + child duration`; the total is the
maximum recorded usage over all channels.  When the stack's channel set
is empty the usage collapses to a single scalar. -/
def specMeasureStack (children : List Child) (channels : List ChannelId)
    (direction : Direction) : Time × List Time :=
  if channels.isEmpty then
    let r := mapAndCollectByDirection
      (fun (child : Child) (u : Time) => (u, u + child.measure))
      direction children Time.ZERO
    (r.2, r.1)
  else
    let r := mapAndCollectByDirection
      (fun (child : Child) (usage : ChannelId → Option Time) =>
        let query := if child.channels.isEmpty then channels else child.channels
        let offset := ((query.filterMap usage).max?).getD Time.ZERO
        (offset,
         fun c => if c ∈ query then some (offset + child.measure) else usage c))
      direction children (fun _ => none)
    (((channels.filterMap r.2).max?).getD Time.ZERO, r.1)

/-- The `ElementCommon` of the C1 failing input: margin `(1, 0)`, builder
defaults otherwise (`alignment = End`, no explicit duration,
`min_duration = 0`, `max_duration = ∞`). -/
def c1FailingCommon : ElementCommon :=
  { margin := (Time.fin 1, Time.fin 0), alignment := .end', phantom := false,
    duration := none, maxDuration := Time.INFINITY, minDuration := Time.fin 0 }

/-! ## Basic lemmas about the model types -/

namespace Time

@[simp] theorem fin_le_fin {a b : ℚ} : (fin a ≤ fin b) ↔ a ≤ b := Iff.rfl

@[simp] theorem fin_lt_fin {a b : ℚ} : (fin a < fin b) ↔ a < b := by
  rw [lt_iff_le_not_le, @lt_iff_le_not_le ℚ _ _ _]
  exact Iff.rfl

@[simp] theorem le_inf (a : Time) : a ≤ inf := by cases a <;> trivial

@[simp] theorem not_inf_le_fin (a : ℚ) : ¬ (inf ≤ fin a) := id

@[simp] theorem fin_lt_inf (a : ℚ) : fin a < inf := by
  rw [lt_iff_le_not_le]
  exact ⟨trivial, id⟩

@[simp] theorem not_inf_lt (a : Time) : ¬ (inf < a) := by
  rw [lt_iff_le_not_le]
  rintro ⟨h1, h2⟩
  exact h2 (le_inf a)

@[simp] theorem fin_add_fin (a b : ℚ) : fin a + fin b = fin (a + b) := rfl

@[simp] theorem fin_sub_fin (a b : ℚ) : fin a - fin b = fin (a - b) := rfl

@[simp] theorem add_inf (a : Time) : a + inf = inf := by cases a <;> rfl

@[simp] theorem inf_add (a : Time) : inf + a = inf := by cases a <;> rfl

@[simp] theorem fin_max_fin (a b : ℚ) : max (fin a) (fin b) = fin (max a b) := by
  rw [max_def, @max_def ℚ _ _ _]
  by_cases h : a ≤ b <;> simp [h]

@[simp] theorem fin_min_fin (a b : ℚ) : min (fin a) (fin b) = fin (min a b) := by
  rw [min_def, @min_def ℚ _ _ _]
  by_cases h : a ≤ b <;> simp [h]

@[simp] theorem max_inf (a : Time) : max a inf = inf := max_eq_right (le_inf a)

@[simp] theorem inf_max (a : Time) : max inf a = inf := max_eq_left (le_inf a)

@[simp] theorem min_inf (a : Time) : min a inf = a := min_eq_left (le_inf a)

@[simp] theorem inf_min (a : Time) : min inf a = a := min_eq_right (le_inf a)

@[simp] theorem isFinite_fin (q : ℚ) : (fin q).isFinite = true := rfl

@[simp] theorem isFinite_inf : (inf : Time).isFinite = false := rfl

theorem add_comm (a b : Time) : a + b = b + a := by
  cases a <;> cases b <;> simp [Rat.add_comm]

@[simp] theorem zero_def : (0 : Time) = fin 0 := rfl

@[simp] theorem ZERO_def : ZERO = fin 0 := rfl

@[simp] theorem INFINITY_def : INFINITY = inf := rfl

end Time

namespace Cplx

@[simp] theorem add_defC (a b : Cplx) : a + b = ⟨a.re + b.re, a.im + b.im⟩ := rfl

@[simp] theorem zero_defC : (0 : Cplx) = ⟨0, 0⟩ := rfl

theorem add_commC (a b : Cplx) : a + b = b + a := by
  simp [Cplx.ext_iff]; constructor <;> ring

theorem add_assocC (a b c : Cplx) : a + b + c = a + (b + c) := by
  simp [Cplx.ext_iff]; constructor <;> ring

@[simp] theorem add_zeroC (a : Cplx) : a + 0 = a := by simp [Cplx.ext_iff]

@[simp] theorem zero_addC (a : Cplx) : 0 + a = a := by simp [Cplx.ext_iff]

@[simp] theorem mul_def (a b : Cplx) :
    a * b = ⟨a.re * b.re - a.im * b.im, a.re * b.im + a.im * b.re⟩ := rfl

end Cplx

namespace PulseAmplitude

@[simp] theorem add_defA (a b : PulseAmplitude) :
    a + b = ⟨a.amp + b.amp, a.drag + b.drag⟩ := rfl

@[simp] theorem zero_defA : (0 : PulseAmplitude) = ⟨0, 0⟩ := rfl

theorem add_commA (a b : PulseAmplitude) : a + b = b + a := by
  simp
  exact ⟨⟨by ring, by ring⟩, by ring, by ring⟩

theorem add_assocA (a b c : PulseAmplitude) : a + b + c = a + (b + c) := by
  simp
  exact ⟨⟨by ring, by ring⟩, by ring, by ring⟩

@[simp] theorem add_zeroA (a : PulseAmplitude) : a + 0 = a := by simp

@[simp] theorem zero_addA (a : PulseAmplitude) : 0 + a = a := by simp

end PulseAmplitude

@[simp] theorem sumAmps_nil : sumAmps [] = 0 := rfl

@[simp] theorem sumAmps_cons (p : ℚ × PulseAmplitude) (l : List (ℚ × PulseAmplitude)) :
    sumAmps (p :: l) = p.2 + sumAmps l := rfl

/-- `sumAmps` is invariant under permutation (amplitude addition is
commutative and associative). -/
theorem sumAmps_perm {l l' : List (ℚ × PulseAmplitude)} (h : l.Perm l') :
    sumAmps l = sumAmps l' := by
  induction h with
  | nil => rfl
  | cons x _ ih => simp [ih]
  | swap x y l =>
    simp
    exact ⟨⟨by ring, by ring⟩, by ring, by ring⟩
  | trans _ _ ih1 ih2 => exact ih1.trans ih2

/-- Every time in the output of the coalescing loop is at least the
anchor's time, provided the anchor precedes the (sorted) input. -/
theorem coalesceGo_le (tol : ℚ) (acc : ℚ × PulseAmplitude) (l : List (ℚ × PulseAmplitude))
    (hl : ∀ x ∈ l, acc.1 ≤ x.1) (hs : l.Pairwise (fun x y => x.1 ≤ y.1)) :
    ∀ z ∈ coalesceGo tol acc l, acc.1 ≤ z.1 := by
  induction l generalizing acc with
  | nil =>
    intro z hz
    simp [coalesceGo] at hz
    simp [hz]
  | cons q rest ih =>
    intro z hz
    rw [coalesceGo] at hz
    rcases List.pairwise_cons.mp hs with ⟨hq, hrest⟩
    by_cases hm : approxEq acc.1 q.1 tol
    · rw [if_pos hm] at hz
      exact ih (acc.1, acc.2 + q.2) (fun x hx => hl x (List.mem_cons_of_mem q hx)) hrest z hz
    · rw [if_neg hm] at hz
      rcases List.mem_cons.mp hz with rfl | hz'
      · exact le_refl _
      · exact le_trans (hl q (List.mem_cons_self q rest)) (ih q hq hrest z hz')

/-- The coalescing loop on a sorted tail preceded by its anchor produces a
list in which any two entries are strictly increasing in time and more
than `tol` apart. -/
theorem coalesceGo_pairwise (tol : ℚ) (htol : 0 ≤ tol) (acc : ℚ × PulseAmplitude)
    (l : List (ℚ × PulseAmplitude))
    (hl : ∀ x ∈ l, acc.1 ≤ x.1) (hs : l.Pairwise (fun x y => x.1 ≤ y.1)) :
    (coalesceGo tol acc l).Pairwise (fun x y => x.1 < y.1 ∧ ¬ approxEq x.1 y.1 tol) := by
  induction l generalizing acc with
  | nil => simp [coalesceGo]
  | cons q rest ih =>
    rw [coalesceGo]
    rcases List.pairwise_cons.mp hs with ⟨hq, hrest⟩
    by_cases hm : approxEq acc.1 q.1 tol
    · rw [if_pos hm]
      exact ih (acc.1, acc.2 + q.2) (fun x hx => hl x (List.mem_cons_of_mem q hx)) hrest
    · rw [if_neg hm]
      refine List.pairwise_cons.mpr ⟨?_, ih q hq hrest⟩
      intro z hz
      have hqz : q.1 ≤ z.1 := coalesceGo_le tol q rest hq hrest z hz
      have haq : acc.1 ≤ q.1 := hl q (List.mem_cons_self q rest)
      have hgap : tol < q.1 - acc.1 := by
        rw [approxEq, abs_sub_comm, abs_of_nonneg (by linarith)] at hm
        linarith
      constructor
      · linarith
      · rw [approxEq, abs_sub_comm, abs_of_nonneg (by linarith)]
        linarith

/-- The coalescing loop preserves the amplitude sum. -/
theorem coalesceGo_sum (tol : ℚ) (acc : ℚ × PulseAmplitude) (l : List (ℚ × PulseAmplitude)) :
    sumAmps (coalesceGo tol acc l) = acc.2 + sumAmps l := by
  induction l generalizing acc with
  | nil => simp [coalesceGo]
  | cons q rest ih =>
    rw [coalesceGo]
    by_cases hm : approxEq acc.1 q.1 tol
    · rw [if_pos hm, ih]
      simp
      exact ⟨⟨by ring, by ring⟩, by ring, by ring⟩
    · rw [if_neg hm]
      simp [ih]

theorem coalesce_pairwise (tol : ℚ) (htol : 0 ≤ tol) (l : List (ℚ × PulseAmplitude))
    (hs : l.Pairwise (fun x y => x.1 ≤ y.1)) :
    (coalesce tol l).Pairwise (fun x y => x.1 < y.1 ∧ ¬ approxEq x.1 y.1 tol) := by
  cases l with
  | nil => simp [coalesce]
  | cons p rest =>
    rcases List.pairwise_cons.mp hs with ⟨hp, hrest⟩
    exact coalesceGo_pairwise tol htol p rest hp hrest

theorem coalesce_sum (tol : ℚ) (l : List (ℚ × PulseAmplitude)) :
    sumAmps (coalesce tol l) = sumAmps l := by
  cases l with
  | nil => rfl
  | cons p rest => simp [coalesce, coalesceGo_sum]

/-- Sortedness of the per-bin sort in `build`. -/
theorem mergeSort_byTime_pairwise (l : List (ℚ × PulseAmplitude)) :
    (l.mergeSort fun x y => decide (x.1 ≤ y.1)).Pairwise (fun x y => x.1 ≤ y.1) := by
  have h := @List.sorted_mergeSort (ℚ × PulseAmplitude)
    (fun x y => decide (x.1 ≤ y.1))
    (by intro a b c hab hbc; simp_all; linarith)
    (by intro a b; simp_all; exact le_total a.1 b.1)
    l
  exact h.imp (by simp)

/-! Lemmas for the stack usage helper. -/

/-- Two lists of times with the same members have the same `max?`. -/
theorem max?_mem_congr {l1 l2 : List Time} (h : ∀ x : Time, x ∈ l1 ↔ x ∈ l2) :
    l1.max? = l2.max? := by
  have anti : Std.Antisymm ((· ≤ ·) : Time → Time → Prop) :=
    ⟨fun {a b} hab hba => le_antisymm hab hba⟩
  cases h1 : l1.max? with
  | none =>
    rw [List.max?_eq_none_iff] at h1
    cases h2 : l2.max? with
    | none => rfl
    | some y =>
      rw [List.max?_eq_some_iff (fun a => le_refl a) (fun a b => max_choice a b)
        (fun a b c => max_le_iff)] at h2
      exact absurd ((h y).mpr h2.1) (by simp [h1])
  | some x =>
    rw [List.max?_eq_some_iff (fun a => le_refl a) (fun a b => max_choice a b)
      (fun a b c => max_le_iff)] at h1
    cases h2 : l2.max? with
    | none =>
      rw [List.max?_eq_none_iff] at h2
      exact absurd ((h x).mp h1.1) (by simp [h2])
    | some y =>
      rw [List.max?_eq_some_iff (fun a => le_refl a) (fun a b => max_choice a b)
        (fun a b c => max_le_iff)] at h2
      have hxy : x ≤ y := h2.2 x ((h x).mp h1.1)
      have hyx : y ≤ x := h1.2 y ((h y).mpr h2.1)
      exact congrArg some (le_antisymm hxy hyx)

theorem usageLookup_insert (d : List (ChannelId × Time)) (k c : ChannelId) (t : Time) :
    usageLookup (usageInsert d k t) c = if k = c then some t else usageLookup d c := by
  induction d with
  | nil =>
    simp only [usageInsert, usageLookup]
  | cons kv rest ih =>
    obtain ⟨k', v⟩ := kv
    by_cases hk : k' = k
    · subst hk
      simp only [usageInsert, if_pos rfl, usageLookup]
      split_ifs <;> simp_all
    · simp only [usageInsert, if_neg hk, usageLookup, ih]
      split_ifs <;> simp_all

theorem usageLookup_foldl_insert (query : List ChannelId) (d : List (ChannelId × Time))
    (t : Time) (c : ChannelId) :
    usageLookup (query.foldl (fun d ch => usageInsert d ch t) d) c =
      if c ∈ query then some t else usageLookup d c := by
  induction query generalizing d with
  | nil => simp
  | cons q rest ih =>
    simp only [List.foldl_cons, ih (usageInsert d q t), usageLookup_insert, List.mem_cons]
    split_ifs <;> simp_all

theorem usageLookup_some_mem_keys (d : List (ChannelId × Time)) (c : ChannelId)
    (h : (usageLookup d c).isSome = true) : c ∈ d.map (·.1) := by
  induction d with
  | nil => simp [usageLookup] at h
  | cons kv rest ih =>
    rw [usageLookup] at h
    by_cases hk : kv.1 = c
    · simp [hk]
    · rw [if_neg hk] at h
      simp [ih h]

theorem usageInsert_keys_sub (d : List (ChannelId × Time)) (k : ChannelId) (t : Time) :
    ∀ x ∈ (usageInsert d k t).map (·.1), x ∈ d.map (·.1) ∨ x = k := by
  induction d with
  | nil => simp [usageInsert]
  | cons kv rest ih =>
    intro x hx
    rw [usageInsert] at hx
    by_cases hk : kv.1 = k
    · rw [if_pos hk] at hx
      simp at hx
      rcases hx with hx | hx <;> simp [hx]
    · rw [if_neg hk] at hx
      simp at hx
      rcases hx with hx | hx
      · simp [hx]
      · rcases ih x (by simpa using hx) with hx' | hx' <;> simp [hx']

theorem usageInsert_keys_nodup (d : List (ChannelId × Time)) (k : ChannelId) (t : Time)
    (h : (d.map (·.1)).Nodup) : ((usageInsert d k t).map (·.1)).Nodup := by
  induction d with
  | nil => simp [usageInsert]
  | cons kv rest ih =>
    rw [usageInsert]
    rw [List.map_cons] at h
    rcases List.nodup_cons.mp h with ⟨hk1, hk2⟩
    by_cases hk : kv.1 = k
    · rw [if_pos hk]
      rw [List.map_cons]
      exact List.nodup_cons.mpr ⟨hk1, hk2⟩
    · rw [if_neg hk]
      simp only [List.map_cons]
      refine List.nodup_cons.mpr ⟨?_, ih hk2⟩
      intro hmem
      rcases usageInsert_keys_sub rest k t kv.1 hmem with hx | hx
      · exact hk1 hx
      · exact hk hx

theorem foldl_insert_keys_nodup (query : List ChannelId) (d : List (ChannelId × Time))
    (t : Time) (h : (d.map (·.1)).Nodup) :
    ((query.foldl (fun d ch => usageInsert d ch t) d).map (·.1)).Nodup := by
  induction query generalizing d with
  | nil => exact h
  | cons q rest ih => exact ih (usageInsert d q t) (usageInsert_keys_nodup d q t h)

theorem mem_values_iff_lookup (d : List (ChannelId × Time))
    (hnd : (d.map (·.1)).Nodup) (x : Time) :
    x ∈ d.map (·.2) ↔ ∃ c, usageLookup d c = some x := by
  induction d with
  | nil => simp [usageLookup]
  | cons kv rest ih =>
    rw [List.map_cons] at hnd
    rcases List.nodup_cons.mp hnd with ⟨hk1, hk2⟩
    simp only [List.map_cons, List.mem_cons]
    constructor
    · rintro (hx | hx)
      · exact ⟨kv.1, by simp [usageLookup, hx]⟩
      · rcases (ih hk2).mp hx with ⟨c, hc⟩
        refine ⟨c, ?_⟩
        rw [usageLookup, if_neg ?_]
        · exact hc
        · intro he
          exact hk1 (he ▸ usageLookup_some_mem_keys rest c (by simp [hc]))
    · rintro ⟨c, hc⟩
      rw [usageLookup] at hc
      by_cases hk : kv.1 = c
      · rw [if_pos hk] at hc
        exact Or.inl (Option.some.inj hc).symm
      · rw [if_neg hk] at hc
        exact Or.inr ((ih hk2).mpr ⟨c, hc⟩)

theorem values_mem_filterMap (channels : List ChannelId) (d : List (ChannelId × Time))
    (hnd : (d.map (·.1)).Nodup)
    (hdom : ∀ c, (usageLookup d c).isSome = true → c ∈ channels) (x : Time) :
    x ∈ d.map (·.2) ↔ x ∈ channels.filterMap (usageLookup d) := by
  rw [mem_values_iff_lookup d hnd x, List.mem_filterMap]
  constructor
  · rintro ⟨c, hc⟩
    exact ⟨c, hdom c (by simp [hc]), hc⟩
  · rintro ⟨c, _, hc⟩
    exact ⟨c, hc⟩

/-! Lemmas for the waveform sampler. -/

theorem mixZip_length (amplitude dragAmp : Cplx) (wf : List Cplx) (es : List (ℚ × ℚ))
    (carrier dcarrier : Cplx) :
    (mixZip amplitude dragAmp wf es carrier dcarrier).length = wf.length := by
  induction wf generalizing es carrier with
  | nil => cases es <;> rfl
  | cons y rest ih =>
    cases es with
    | nil => rfl
    | cons e erest => simp [mixZip, ih]

theorem mixAddEnvelope_length (rcos rsin : ℚ → ℚ) (wf : List Cplx) (env : List ℚ)
    (amplitude dragAmp : Cplx) (phase0 dphase : ℚ) :
    (mixAddEnvelope rcos rsin wf env amplitude dragAmp phase0 dphase).length = wf.length :=
  mixZip_length _ _ _ _ _ _

theorem mixAddPlateauGo_length (wf : List Cplx) (carrier dcarrier : Cplx) :
    (mixAddPlateauGo wf carrier dcarrier).length = wf.length := by
  induction wf generalizing carrier with
  | nil => rfl
  | cons y rest ih => simp [mixAddPlateauGo, ih]

theorem mixAddPlateau_length (rcos rsin : ℚ → ℚ) (wf : List Cplx) (amplitude : Cplx)
    (phase dphase : ℚ) :
    (mixAddPlateau rcos rsin wf amplitude phase dphase).length = wf.length :=
  mixAddPlateauGo_length _ _ _

@[simp] theorem mixZip_nil (amplitude dragAmp : Cplx) (es : List (ℚ × ℚ))
    (carrier dcarrier : Cplx) :
    mixZip amplitude dragAmp [] es carrier dcarrier = [] := by
  cases es <;> rfl

namespace Cplx

@[simp] theorem scale_def (k : ℚ) (z : Cplx) : scale k z = ⟨k * z.re, k * z.im⟩ := rfl

theorem scale_one (z : Cplx) : scale 1 z = z := by simp

@[simp] theorem scale_zero (k : ℚ) : scale k 0 = 0 := by simp

theorem scale_mul_left (k : ℚ) (a b : Cplx) : scale k a * b = scale k (a * b) := by
  simp
  constructor <;> ring

theorem mul_scale_right (k : ℚ) (a b : Cplx) : a * scale k b = scale k (a * b) := by
  simp
  constructor <;> ring

theorem scale_add (k : ℚ) (a b : Cplx) : scale k (a + b) = scale k a + scale k b := by
  simp
  constructor <;> ring

theorem scale_scale (k m : ℚ) (a : Cplx) : scale k (scale m a) = scale m (scale k a) := by
  simp
  constructor <;> ring

end Cplx

theorem mixAddPlateauGo_scale (k : ℚ) (wf : List Cplx) (carrier dcarrier : Cplx) :
    mixAddPlateauGo (wf.map (Cplx.scale k)) (Cplx.scale k carrier) dcarrier =
      (mixAddPlateauGo wf carrier dcarrier).map (Cplx.scale k) := by
  induction wf generalizing carrier with
  | nil => rfl
  | cons y rest ih =>
    simp only [List.map_cons, mixAddPlateauGo, List.map]
    rw [Cplx.scale_mul_left, ih, ← Cplx.scale_add]

theorem mixZip_scale (k : ℚ) (amp drag : Cplx) (wf : List Cplx) (es : List (ℚ × ℚ))
    (carrier dcarrier : Cplx) :
    mixZip (Cplx.scale k amp) (Cplx.scale k drag) (wf.map (Cplx.scale k)) es carrier dcarrier =
      (mixZip amp drag wf es carrier dcarrier).map (Cplx.scale k) := by
  induction wf generalizing es carrier with
  | nil => simp
  | cons y rest ih =>
    cases es with
    | nil => rfl
    | cons e erest =>
      simp only [List.map_cons, mixZip]
      rw [ih]
      congr 1
      simp
      constructor <;> ring

theorem mixAddEnvelope_scale (k : ℚ) (rcos rsin : ℚ → ℚ) (wf : List Cplx) (env : List ℚ)
    (amp dragAmp : Cplx) (p0 dp : ℚ) :
    mixAddEnvelope rcos rsin (wf.map (Cplx.scale k)) env (Cplx.scale k amp)
        (Cplx.scale k dragAmp) p0 dp =
      (mixAddEnvelope rcos rsin wf env amp dragAmp p0 dp).map (Cplx.scale k) :=
  mixZip_scale k amp dragAmp wf (envSlopes env) _ _

theorem mixAddPlateau_scale (k : ℚ) (rcos rsin : ℚ → ℚ) (wf : List Cplx) (amp : Cplx)
    (p dp : ℚ) :
    mixAddPlateau rcos rsin (wf.map (Cplx.scale k)) (Cplx.scale k amp) p dp =
      (mixAddPlateau rcos rsin wf amp p dp).map (Cplx.scale k) := by
  rw [mixAddPlateau, mixAddPlateau, ← mixAddPlateauGo_scale]
  rw [Cplx.mul_scale_right]

theorem sampleEntry_scale (tau : ℚ) (rcos rsin : ℚ → ℚ) (shapeFn : Shape → ℚ → ℚ)
    (sampleRate delay : ℚ) (alignLevel : ℤ) (bin : ListBin) (k : ℚ) (wf : List Cplx)
    (time : ℚ) (pa : PulseAmplitude) :
    sampleEntry tau rcos rsin shapeFn sampleRate delay alignLevel bin
        (wf.map (Cplx.scale k)) time (pa.mulF k) =
      (sampleEntry tau rcos rsin shapeFn sampleRate delay alignLevel bin wf time pa).map
        (List.map (Cplx.scale k)) := by
  simp only [sampleEntry, List.length_map]
  by_cases hidx : (alignedCeil (time + delay) sampleRate alignLevel).toNat ≤ wf.length
  · rw [if_pos hidx, if_pos hidx]
    cases hsh : bin.envelope.shape with
    | some shape =>
      simp only
      cases henv : getEnvelope shapeFn shape bin.envelope.width.toRat
          bin.envelope.plateau.toRat
          (alignedIndexOffset (time + delay) sampleRate alignLevel) sampleRate with
      | none => rfl
      | some env =>
        dsimp only
        rw [Option.map_some']
        congr 1
        rw [List.map_append]
        rw [← List.map_take]
        congr 1
        rw [show Cplx.scale sampleRate (pa.mulF k).drag =
            Cplx.scale k (Cplx.scale sampleRate pa.drag) from
          Cplx.scale_scale sampleRate k pa.drag]
        rw [← List.map_drop]
        exact mixAddEnvelope_scale k rcos rsin _ env pa.amp (Cplx.scale sampleRate pa.drag) _ _
    | none =>
      dsimp only
      simp only [List.length_drop, List.length_map]
      by_cases hpl : (⌈bin.envelope.plateau.toRat * sampleRate⌉).toNat ≤
          wf.length - (alignedCeil (time + delay) sampleRate alignLevel).toNat
      · rw [if_pos hpl, if_pos hpl]
        rw [Option.map_some']
        congr 1
        rw [List.map_append, List.map_append, ← List.map_take]
        congr 1
        rw [← List.map_drop, ← List.map_take]
        congr 1
        · exact mixAddPlateau_scale k rcos rsin _ pa.amp _ _
        · rw [← List.map_drop, ← List.map_drop]
      · rw [if_neg hpl, if_neg hpl]
        rfl
  · rw [if_neg hidx, if_neg hidx]
    rfl

theorem sampleItems_scale (tau : ℚ) (rcos rsin : ℚ → ℚ) (shapeFn : Shape → ℚ → ℚ)
    (sampleRate delay : ℚ) (alignLevel : ℤ) (bin : ListBin) (k : ℚ)
    (items : List (ℚ × PulseAmplitude)) (wf : List Cplx) :
    sampleItems tau rcos rsin shapeFn sampleRate delay alignLevel bin (scaleItems k items)
        (wf.map (Cplx.scale k)) =
      (sampleItems tau rcos rsin shapeFn sampleRate delay alignLevel bin items wf).map
        (List.map (Cplx.scale k)) := by
  induction items generalizing wf with
  | nil => rfl
  | cons tp rest ih =>
    simp only [scaleItems, List.map_cons, sampleItems]
    rw [sampleEntry_scale]
    cases h : sampleEntry tau rcos rsin shapeFn sampleRate delay alignLevel bin wf tp.1 tp.2 with
    | none => rfl
    | some wf1 =>
      simp only [Option.map_some']
      exact ih wf1

theorem sampleBins_scale (tau : ℚ) (rcos rsin : ℚ → ℚ) (shapeFn : Shape → ℚ → ℚ)
    (sampleRate delay : ℚ) (alignLevel : ℤ) (k : ℚ)
    (list : List (ListBin × List (ℚ × PulseAmplitude))) (wf : List Cplx) :
    sampleBins tau rcos rsin shapeFn sampleRate delay alignLevel
        (list.map fun bi => (bi.1, scaleItems k bi.2)) (wf.map (Cplx.scale k)) =
      (sampleBins tau rcos rsin shapeFn sampleRate delay alignLevel list wf).map
        (List.map (Cplx.scale k)) := by
  induction list generalizing wf with
  | nil => rfl
  | cons bi rest ih =>
    simp only [List.map_cons, sampleBins]
    rw [sampleItems_scale]
    cases h : sampleItems tau rcos rsin shapeFn sampleRate delay alignLevel bi.1 bi.2 wf with
    | none => rfl
    | some wf1 =>
      simp only [Option.map_some']
      exact ih wf1

/-- `sample_pulse_list` is linear in the pulse amplitudes: scaling every
entry by `k` scales every output sample by `k`. -/
theorem samplePulseList_scale (tau : ℚ) (rcos rsin : ℚ → ℚ) (shapeFn : Shape → ℚ → ℚ)
    (k : ℚ) (list : List (ListBin × List (ℚ × PulseAmplitude))) (length : ℕ)
    (sampleRate delay : ℚ) (alignLevel : ℤ) :
    samplePulseList tau rcos rsin shapeFn (list.map fun bi => (bi.1, scaleItems k bi.2))
        length sampleRate delay alignLevel =
      (samplePulseList tau rcos rsin shapeFn list length sampleRate delay alignLevel).map
        (List.map (Cplx.scale k)) := by
  rw [samplePulseList, samplePulseList, ← sampleBins_scale]
  congr 1
  rw [List.map_replicate, Cplx.scale_zero]

/-- When no two adjacent entries are within the tolerance, coalescing is
the identity. -/
theorem coalesceGo_id (tol : ℚ) (acc : ℚ × PulseAmplitude) (l : List (ℚ × PulseAmplitude))
    (h : List.Chain' (fun x y => ¬ approxEq x.1 y.1 tol) (acc :: l)) :
    coalesceGo tol acc l = acc :: l := by
  induction l generalizing acc with
  | nil => rfl
  | cons q rest ih =>
    rw [coalesceGo]
    rcases List.chain'_cons.mp h with ⟨haq, hrest⟩
    rw [if_neg haq, ih q hrest]

theorem coalesce_id (tol : ℚ) (l : List (ℚ × PulseAmplitude))
    (h : List.Chain' (fun x y => ¬ approxEq x.1 y.1 tol) l) :
    coalesce tol l = l := by
  cases l with
  | nil => rfl
  | cons p rest => exact coalesceGo_id tol p rest h

theorem kmergeGo_single {α : Type} (lt : α → α → Bool) (xs : List α) :
    kmergeGo lt xs.length [xs] = xs := by
  induction xs with
  | nil => rfl
  | cons x rest ih =>
    simp only [List.length_cons, kmergeGo, pickMin]
    rw [ih]

theorem kmergeBy_single {α : Type} (lt : α → α → Bool) (xs : List α) :
    kmergeBy lt [xs] = xs := by
  rw [kmergeBy]
  simp only [List.map_cons, List.map_nil, List.sum_cons, List.sum_nil, Nat.add_zero]
  exact kmergeGo_single lt xs

theorem entryPushIter_new (acc : List (ListBin × List (List (ℚ × PulseAmplitude))))
    (bin : ListBin) (its : List (ℚ × PulseAmplitude)) (h : bin ∉ acc.map (·.1)) :
    entryPushIter acc bin its = acc ++ [(bin, [its])] := by
  induction acc with
  | nil => rfl
  | cons bv rest ih =>
    simp only [List.map_cons, List.mem_cons] at h
    push_neg at h
    rw [entryPushIter, if_neg (fun he => h.1 he.symm), ih h.2]
    rfl

theorem mergeFold_items (m : ℚ) (items : List (ListBin × List (ℚ × PulseAmplitude)))
    (acc : List (ListBin × List (List (ℚ × PulseAmplitude))))
    (hnd : (items.map (·.1)).Nodup)
    (hdisj : ∀ b ∈ items.map (·.1), b ∉ acc.map (·.1)) :
    items.foldl (fun acc bi => entryPushIter acc bi.1 (scaleItems m bi.2)) acc =
      acc ++ items.map fun bi => (bi.1, [scaleItems m bi.2]) := by
  induction items generalizing acc with
  | nil => simp
  | cons bi rest ih =>
    rw [List.map_cons] at hnd
    rcases List.nodup_cons.mp hnd with ⟨hh, ht⟩
    rw [List.foldl_cons, entryPushIter_new acc bi.1 _ (hdisj bi.1 (by simp))]
    rw [ih (acc ++ [(bi.1, [scaleItems m bi.2])]) ht ?_]
    · simp
    · intro b hb
      rw [List.map_append]
      simp only [List.mem_append]
      push_neg
      refine ⟨hdisj b (by simp [hb]), ?_⟩
      simp only [List.map_cons, List.map_nil, List.mem_singleton]
      intro he
      exact hh (he ▸ hb)

theorem mergeFold_skip (ls : List (ℚ × PulseList))
    (acc : List (ListBin × List (List (ℚ × PulseAmplitude))))
    (h : ∀ ml ∈ ls, ml.1 = (0 : ℚ)) :
    ls.foldl (fun acc ml => if ml.1 = 0 then acc
      else ml.2.items.foldl (fun acc bi => entryPushIter acc bi.1 (scaleItems ml.1 bi.2)) acc)
      acc = acc := by
  induction ls generalizing acc with
  | nil => rfl
  | cons ml rest ih =>
    rw [List.foldl_cons, if_pos (h ml (List.mem_cons_self ml rest))]
    exact ih acc (fun x hx => h x (List.mem_cons_of_mem ml hx))

/-- The merge fold of `merge_and_sample` for a row with a single nonzero
multiplier `k` (at a channel with distinct names): only that channel's
list survives, each bin carrying its single scaled stream. -/
theorem mergeFold_delta (chs : List (ChannelId × Channel)) (target : ChannelId × Channel)
    (k : ℚ) (hk : k ≠ 0) (hnd : (chs.map (·.1)).Nodup) (hmem : target ∈ chs)
    (hbins : (target.2.pulses.items.map (·.1)).Nodup) :
    (chs.map fun nc => ((if target.1 = nc.1 then k else 0), nc.2.pulses)).foldl
        (fun acc ml => if ml.1 = 0 then acc
          else ml.2.items.foldl (fun acc bi => entryPushIter acc bi.1 (scaleItems ml.1 bi.2)) acc)
        [] =
      target.2.pulses.items.map fun bi => (bi.1, [scaleItems k bi.2]) := by
  induction chs with
  | nil => cases hmem
  | cons nc rest ih =>
    rw [List.map_cons] at hnd
    rcases List.nodup_cons.mp hnd with ⟨hh, ht⟩
    rw [List.map_cons, List.foldl_cons]
    rcases List.mem_cons.mp hmem with rfl | hmem'
    · rw [if_neg (show ¬ ((if target.1 = target.1 then k else (0 : ℚ)) = 0) by simp [hk])]
      dsimp only
      rw [show (if target.1 = target.1 then k else (0 : ℚ)) = k from if_pos rfl]
      rw [mergeFold_items k target.2.pulses.items [] hbins (by simp)]
      rw [List.nil_append]
      refine mergeFold_skip _ _ ?_
      intro ml hml
      rcases List.mem_map.mp hml with ⟨nc', hnc', heq⟩
      rw [← heq]
      have hne : target.1 ≠ nc'.1 := fun he => hh (he ▸ List.mem_map_of_mem (·.1) hnc')
      simp [hne]
    · have hne : nc.1 ≠ target.1 := by
        intro he
        exact hh (he ▸ List.mem_map_of_mem (·.1) hmem')
      rw [if_pos (show ((if target.1 = nc.1 then k else (0 : ℚ))) = 0 by
        rw [if_neg (fun he => hne he.symm)])]
      exact ih ht hmem'

theorem lookupChannel_mem (chs : List (ChannelId × Channel)) (nc : ChannelId × Channel)
    (hnd : (chs.map (·.1)).Nodup) (hmem : nc ∈ chs) :
    lookupChannel chs nc.1 = some nc.2 := by
  induction chs with
  | nil => cases hmem
  | cons hd rest ih =>
    rw [List.map_cons] at hnd
    rcases List.nodup_cons.mp hnd with ⟨hh, ht⟩
    rcases List.mem_cons.mp hmem with rfl | hmem'
    · rw [lookupChannel, if_pos rfl]
    · rw [lookupChannel, if_neg ?_]
      · exact ih ht hmem'
      · intro he
        exact hh (he ▸ List.mem_map_of_mem (·.1) hmem')

theorem collectLists_map (chs : List (ChannelId × Channel)) (f : (ChannelId × Channel) → ℚ)
    (sub : List (ChannelId × Channel))
    (h : ∀ nc ∈ sub, lookupChannel chs nc.1 = some nc.2) :
    collectLists chs (sub.map fun nc => (f nc, nc.1)) =
      some (sub.map fun nc => (f nc, nc.2.pulses)) := by
  induction sub with
  | nil => rfl
  | cons nc rest ih =>
    simp only [List.map_cons, collectLists]
    rw [h nc (List.mem_cons_self nc rest), ih (fun x hx => h x (List.mem_cons_of_mem nc hx))]

/-- Scaling preserves entry times, hence adjacency separation. -/
theorem scaleItems_chain (k tol : ℚ) (l : List (ℚ × PulseAmplitude))
    (h : List.Chain' (fun x y => ¬ approxEq x.1 y.1 tol) l) :
    List.Chain' (fun x y => ¬ approxEq x.1 y.1 tol) (scaleItems k l) := by
  induction l with
  | nil => simp [scaleItems]
  | cons x rest ih =>
    cases rest with
    | nil => simp [scaleItems]
    | cons y rest2 =>
      simp only [scaleItems, List.map_cons] at *
      rcases List.chain'_cons.mp h with ⟨hxy, h2⟩
      exact List.chain'_cons.mpr ⟨hxy, ih h2⟩

/-- `merge_and_sample` for a row with a single nonzero multiplier `k`:
the output is the target channel's plain sample scaled by `k`, provided
the target's built list has distinct bins and no two adjacent entries of
a bin within the tolerance (so the re-coalescing pass is the identity). -/
theorem mergeAndSample_delta (tau : ℚ) (rcos rsin : ℚ → ℚ) (shapeFn : Shape → ℚ → ℚ)
    (chs : List (ChannelId × Channel)) (target : ChannelId × Channel) (k : ℚ)
    (length : ℕ) (sampleRate delay : ℚ) (alignLevel : ℤ) (timeTolerance : ℚ)
    (hk : k ≠ 0)
    (hnd : (chs.map (·.1)).Nodup) (hmem : target ∈ chs)
    (hbins : (target.2.pulses.items.map (·.1)).Nodup)
    (hsep : ∀ bi ∈ target.2.pulses.items,
      List.Chain' (fun x y => ¬ approxEq x.1 y.1 timeTolerance) bi.2) :
    mergeAndSample tau rcos rsin shapeFn
        (chs.map fun nc => ((if target.1 = nc.1 then k else 0), nc.2.pulses))
        length sampleRate delay alignLevel timeTolerance =
      (samplePulseList tau rcos rsin shapeFn target.2.pulses.items length sampleRate delay
        alignLevel).map (List.map (Cplx.scale k)) := by
  simp only [mergeAndSample]
  rw [mergeFold_delta chs target k hk hnd hmem hbins]
  rw [List.map_map]
  have hcong : ∀ bi ∈ target.2.pulses.items,
      ((fun bi => (bi.1,
          coalesce timeTolerance (kmergeBy (fun a b => decide (a.1 < b.1)) bi.2))) ∘
        (fun bi => (bi.1, [scaleItems k bi.2]))) bi = (bi.1, scaleItems k bi.2) := by
    intro bi hbi
    simp only [Function.comp]
    rw [kmergeBy_single]
    rw [coalesce_id timeTolerance (scaleItems k bi.2)
      (scaleItems_chain k timeTolerance bi.2 (hsep bi hbi))]
  rw [List.map_congr_left hcong]
  exact samplePulseList_scale tau rcos rsin shapeFn k target.2.pulses.items length
    sampleRate delay alignLevel

/-- The crosstalk rows of a `k`-scaled identity matrix each produce the
`k`-scaled plain sample of their own channel. -/
theorem sampleRows_delta (tau : ℚ) (rcos rsin : ℚ → ℚ) (shapeFn : Shape → ℚ → ℚ)
    (chs : List (ChannelId × Channel)) (timeTolerance : ℚ) (k : ℚ) (hk : k ≠ 0)
    (hnd : (chs.map (·.1)).Nodup)
    (hbins : ∀ nc ∈ chs, (nc.2.pulses.items.map (·.1)).Nodup)
    (hsep : ∀ nc ∈ chs, ∀ bi ∈ nc.2.pulses.items,
      List.Chain' (fun x y => ¬ approxEq x.1 y.1 timeTolerance) bi.2)
    (sub : List (ChannelId × Channel)) (hsub : ∀ nc ∈ sub, nc ∈ chs) :
    sampleRows tau rcos rsin shapeFn chs (chs.map (·.1)) timeTolerance
        (sub.map fun nc => (chs.map fun nc' => (if nc.1 = nc'.1 then k else (0 : ℚ)), nc.1)) =
      some (sub.map fun nc => (nc.1,
        (samplePulseList tau rcos rsin shapeFn nc.2.pulses.items nc.2.length nc.2.sampleRate
          nc.2.delay nc.2.alignLevel).map (List.map (Cplx.scale k)))) := by
  induction sub with
  | nil => rfl
  | cons nc rest ih =>
    simp only [List.map_cons, sampleRows]
    rw [lookupChannel_mem chs nc hnd (hsub nc (List.mem_cons_self nc rest))]
    rw [List.zip_map']
    rw [collectLists_map chs _ chs (fun x hx => lookupChannel_mem chs x hnd hx)]
    rw [ih (fun x hx => hsub x (List.mem_cons_of_mem nc hx))]
    dsimp only
    rw [mergeAndSample_delta tau rcos rsin shapeFn chs nc k nc.2.length nc.2.sampleRate
      nc.2.delay nc.2.alignLevel timeTolerance hk hnd
      (hsub nc (List.mem_cons_self nc rest)) (hbins nc (hsub nc (List.mem_cons_self nc rest)))
      (hsep nc (hsub nc (List.mem_cons_self nc rest)))]

/-- A fitting entry is sampled without a panic, and the buffer length is
preserved. -/
theorem sampleEntry_fits (tau : ℚ) (rcos rsin : ℚ → ℚ) (shapeFn : Shape → ℚ → ℚ)
    (sampleRate delay : ℚ) (alignLevel : ℤ) (bin : ListBin) (waveform : List Cplx)
    (time : ℚ) (pa : PulseAmplitude)
    (hfit : entryFits shapeFn sampleRate delay alignLevel bin waveform.length time) :
    ∃ wf, sampleEntry tau rcos rsin shapeFn sampleRate delay alignLevel bin waveform time pa =
        some wf ∧ wf.length = waveform.length := by
  rcases hfit with ⟨hidx, hrest⟩
  rw [sampleEntry]
  rw [if_pos hidx]
  cases hsh : bin.envelope.shape with
  | some shape =>
    rw [hsh] at hrest
    simp only
    cases henv : getEnvelope shapeFn shape bin.envelope.width.toRat bin.envelope.plateau.toRat
        (alignedIndexOffset (time + delay) sampleRate alignLevel) sampleRate with
    | none => exact absurd henv hrest
    | some env =>
      refine ⟨_, rfl, ?_⟩
      rw [List.length_append, mixAddEnvelope_length, List.length_take, List.length_drop]
      omega
  | none =>
    rw [hsh] at hrest
    simp only
    rw [if_pos (by rw [List.length_drop]; exact hrest)]
    refine ⟨_, rfl, ?_⟩
    rw [List.length_append, List.length_append, mixAddPlateau_length, List.length_take,
      List.length_take, List.length_drop, List.length_drop, List.length_drop]
    omega

theorem sampleItems_fits (tau : ℚ) (rcos rsin : ℚ → ℚ) (shapeFn : Shape → ℚ → ℚ)
    (sampleRate delay : ℚ) (alignLevel : ℤ) (bin : ListBin)
    (items : List (ℚ × PulseAmplitude)) (waveform : List Cplx)
    (hfit : ∀ tp ∈ items, entryFits shapeFn sampleRate delay alignLevel bin
      waveform.length tp.1) :
    ∃ wf, sampleItems tau rcos rsin shapeFn sampleRate delay alignLevel bin items waveform =
        some wf ∧ wf.length = waveform.length := by
  induction items generalizing waveform with
  | nil => exact ⟨waveform, rfl, rfl⟩
  | cons tp rest ih =>
    rcases sampleEntry_fits tau rcos rsin shapeFn sampleRate delay alignLevel bin waveform
        tp.1 tp.2 (hfit tp (List.mem_cons_self tp rest)) with ⟨wf1, hwf1, hlen1⟩
    rcases ih wf1 (fun x hx => hlen1 ▸ hfit x (List.mem_cons_of_mem tp hx)) with
      ⟨wf2, hwf2, hlen2⟩
    refine ⟨wf2, ?_, hlen2.trans hlen1⟩
    rw [sampleItems, hwf1]
    exact hwf2

theorem sampleBins_fits (tau : ℚ) (rcos rsin : ℚ → ℚ) (shapeFn : Shape → ℚ → ℚ)
    (sampleRate delay : ℚ) (alignLevel : ℤ)
    (list : List (ListBin × List (ℚ × PulseAmplitude))) (waveform : List Cplx)
    (hfit : ∀ bi ∈ list, ∀ tp ∈ bi.2, entryFits shapeFn sampleRate delay alignLevel bi.1
      waveform.length tp.1) :
    ∃ wf, sampleBins tau rcos rsin shapeFn sampleRate delay alignLevel list waveform =
        some wf ∧ wf.length = waveform.length := by
  induction list generalizing waveform with
  | nil => exact ⟨waveform, rfl, rfl⟩
  | cons bi rest ih =>
    rcases sampleItems_fits tau rcos rsin shapeFn sampleRate delay alignLevel bi.1 bi.2
        waveform (fun tp htp => hfit bi (List.mem_cons_self bi rest) tp htp) with
      ⟨wf1, hwf1, hlen1⟩
    rcases ih wf1 (fun b hb tp htp => hlen1 ▸ hfit b (List.mem_cons_of_mem bi hb) tp htp) with
      ⟨wf2, hwf2, hlen2⟩
    refine ⟨wf2, ?_, hlen2.trans hlen1⟩
    rw [sampleBins, hwf1]
    exact hwf2

/-- Pointwise equivalence of two stateful folds under a state relation. -/
theorem mapState_rel {α σ₁ σ₂ β : Type} (R : σ₁ → σ₂ → Prop) (P : α → Prop)
    (f1 : α → σ₁ → β × σ₁) (f2 : α → σ₂ → β × σ₂)
    (hstep : ∀ a s1 s2, P a → R s1 s2 →
      (f1 a s1).1 = (f2 a s2).1 ∧ R (f1 a s1).2 (f2 a s2).2) :
    ∀ (l : List α) (s1 : σ₁) (s2 : σ₂), (∀ a ∈ l, P a) → R s1 s2 →
      (mapState f1 l s1).1 = (mapState f2 l s2).1 ∧
        R (mapState f1 l s1).2 (mapState f2 l s2).2 := by
  intro l
  induction l with
  | nil =>
    intro s1 s2 _ hR
    exact ⟨rfl, hR⟩
  | cons a rest ih =>
    intro s1 s2 hP hR
    rcases hstep a s1 s2 (hP a (List.mem_cons_self a rest)) hR with ⟨hfst, hsnd⟩
    rcases ih (f1 a s1).2 (f2 a s2).2 (fun x hx => hP x (List.mem_cons_of_mem a hx)) hsnd
      with ⟨ih1, ih2⟩
    constructor
    · show (f1 a s1).1 :: (mapState f1 rest (f1 a s1).2).1 =
        (f2 a s2).1 :: (mapState f2 rest (f2 a s2).2).1
      rw [hfst, ih1]
    · exact ih2

theorem mapState_stateless {α σ β : Type} (f : α → β) (l : List α) (s : σ) :
    mapState (fun a s => (f a, s)) l s = (l.map f, s) := by
  induction l generalizing s with
  | nil => rfl
  | cons a rest ih => simp [mapState, ih]

theorem mapState_length {α σ β : Type} (f : α → σ → β × σ) (l : List α) (s : σ) :
    (mapState f l s).1.length = l.length := by
  induction l generalizing s with
  | nil => rfl
  | cons a rest ih => simp [mapState, ih]

/-- The same equivalence through `map_and_collect_by_direction`. -/
theorem mapAndCollect_rel {α σ₁ σ₂ β : Type} (R : σ₁ → σ₂ → Prop) (P : α → Prop)
    (f1 : α → σ₁ → β × σ₁) (f2 : α → σ₂ → β × σ₂)
    (hstep : ∀ a s1 s2, P a → R s1 s2 →
      (f1 a s1).1 = (f2 a s2).1 ∧ R (f1 a s1).2 (f2 a s2).2)
    (direction : Direction) (l : List α) (s1 : σ₁) (s2 : σ₂)
    (hP : ∀ a ∈ l, P a) (hR : R s1 s2) :
    (mapAndCollectByDirection f1 direction l s1).1 =
        (mapAndCollectByDirection f2 direction l s2).1 ∧
      R (mapAndCollectByDirection f1 direction l s1).2
        (mapAndCollectByDirection f2 direction l s2).2 := by
  cases direction with
  | forward => exact mapState_rel R P f1 f2 hstep l s1 s2 hP hR
  | backward =>
    rcases mapState_rel R P f1 f2 hstep l.reverse s1 s2
      (fun a ha => hP a (List.mem_reverse.mp ha)) hR with ⟨h1, h2⟩
    exact ⟨by simp [mapAndCollectByDirection, h1], h2⟩

/-! ## Claim theorems -/

/-- C1: with margin `(1, 0)` and a variant inner duration of `5` (and no
min/max constraints), `measure` returns `unclipped_duration = 6` as the
claim states, but `duration = 7`: the code computes
`clamp(unclipped, min_d, max_d) + total_margin`, adding the margin a second
time on top of `unclipped` (which already contains it), where the claim
(and the doc comment on `unclipped_duration`, which says it excludes the
margin) requires `clamp(unclipped - total_margin, min_d, max_d) +
total_margin = 6`. -/
theorem measure_double_counts_margin :
    measure c1FailingCommon (Time.fin 5) =
        some { unclippedDuration := Time.fin 6, duration := Time.fin 7 }
      ∧ max (clampDuration (Time.fin 6 - c1FailingCommon.totalMargin)
            c1FailingCommon.clampMinMaxDuration.1 c1FailingCommon.clampMinMaxDuration.2
            + c1FailingCommon.totalMargin) Time.ZERO = Time.fin 6
      ∧ Time.fin 7 ≠ Time.fin 6 := by
  refine ⟨?_, ?_, ?_⟩
  · norm_num [measure, c1FailingCommon, ElementCommon.totalMargin,
      ElementCommon.clampMinMaxDuration, clampDuration]
  · norm_num [c1FailingCommon, ElementCommon.totalMargin,
      ElementCommon.clampMinMaxDuration, clampDuration]
  · norm_num

/-- C9: `Envelope::new` canonicalizes — without a shape the width is folded
into the plateau, with a zero width the shape is dropped, and consequently
every constructed envelope has either a shape and a nonzero width or no
shape and a zero width. -/
theorem envelope_new_canonicalizes :
    (∀ w p : Time, Envelope.new none w p =
        { shape := none, width := Time.fin 0, plateau := w + p })
    ∧ (∀ (s : Shape) (p : Time), Envelope.new (some s) Time.ZERO p =
        { shape := none, width := Time.fin 0, plateau := p })
    ∧ (∀ (s : Option Shape) (w p : Time),
        ((Envelope.new s w p).shape.isSome = true ∧ (Envelope.new s w p).width ≠ Time.fin 0)
        ∨ ((Envelope.new s w p).shape = none ∧ (Envelope.new s w p).width = Time.fin 0)) := by
  refine ⟨?_, ?_, ?_⟩
  · intro w p
    simp [Envelope.new, Time.add_comm]
  · intro s p
    simp [Envelope.new, Time.ZERO]
  · intro s w p
    cases s with
    | none => exact Or.inr ⟨by simp [Envelope.new], by simp [Envelope.new]⟩
    | some sh =>
      by_cases hw : w = Time.fin 0
      · exact Or.inr ⟨by simp [Envelope.new, hw], by simp [Envelope.new, hw]⟩
      · exact Or.inl ⟨by simp [Envelope.new, hw], by simp [Envelope.new, hw]⟩

/-- C10: `clamp_duration` is `max(min(d, max_duration), min_duration)`, so
`min_duration` wins whenever `min_duration > max_duration`: the derived
`(min_d, max_d)` collapse to `min_duration` (overriding both
`max_duration` and an explicit `duration`), `measure` returns
`min_duration + margin` regardless of the inner duration, and `arrange`
hands the variant `min_duration` as the final inner duration. -/
theorem clampDuration_min_precedence :
    (∀ d lo hi : Time, clampDuration d lo hi = max (min d hi) lo)
    ∧ (∀ d lo hi : Time, hi < lo → clampDuration d lo hi = lo)
    ∧ (∀ c : ElementCommon, c.maxDuration < c.minDuration →
        c.clampMinMaxDuration = (c.minDuration, c.minDuration))
    ∧ (∀ (c : ElementCommon) (inner : Time), c.maxDuration < c.minDuration →
        c.totalMargin.isFinite = true →
        measure c inner =
          some { unclippedDuration := max (inner + c.totalMargin) Time.ZERO,
                 duration := max (c.minDuration + c.totalMargin) Time.ZERO })
    ∧ (∀ (c : ElementCommon) (m : MeasuredElement) (time duration : Time)
        (options : ScheduleOptions),
        c.maxDuration < c.minDuration → options.allowOversize = true →
        (time + c.margin.1).isFinite = true →
        arrange m c time duration options (fun t => .ok t) =
          .ok { innerTime := time + c.margin.1, innerDuration := c.minDuration }) := by
  have hclamp : ∀ d lo hi : Time, hi < lo → clampDuration d lo hi = lo := by
    intro d lo hi h
    exact max_eq_right (le_trans (min_le_right d hi) h.le)
  have hce : ∀ d lo : Time, clampDuration d lo lo = lo := by
    intro d lo
    exact max_eq_right (min_le_right d lo)
  have hmm : ∀ c : ElementCommon, c.maxDuration < c.minDuration →
      c.clampMinMaxDuration = (c.minDuration, c.minDuration) := by
    intro c h
    simp [ElementCommon.clampMinMaxDuration, hclamp _ _ _ h]
  refine ⟨fun _ _ _ => rfl, hclamp, hmm, ?_, ?_⟩
  · intro c inner h hfin
    simp only [measure, hmm c h, hfin]
    simp [hce]
  · intro c m time duration options h hallow hfin
    simp only [arrange, hallow, hmm c h, hfin]
    simp [hce]

/-- Witness for `clampDuration_min_precedence` at `min_duration = 2 >
max_duration = 1`: the clamp yields `2` and `measure` yields duration `2`
regardless of the inner duration `5`. -/
theorem clampDuration_min_precedence_witness :
    (Time.fin 1 < Time.fin 2)
    ∧ clampDuration (Time.fin 5) (Time.fin 2) (Time.fin 1) = Time.fin 2
    ∧ measure { margin := (Time.fin 0, Time.fin 0), alignment := .end', phantom := false,
                duration := none, maxDuration := Time.fin 1, minDuration := Time.fin 2 }
        (Time.fin 5) =
        some { unclippedDuration := Time.fin 5, duration := Time.fin 2 } := by
  have h12 : Time.fin 1 < Time.fin 2 := by norm_num [Time.fin_lt_fin]
  refine ⟨h12, clampDuration_min_precedence.2.1 _ _ _ h12, ?_⟩
  have h := clampDuration_min_precedence.2.2.2.1
      { margin := (Time.fin 0, Time.fin 0), alignment := .end', phantom := false,
        duration := none, maxDuration := Time.fin 1, minDuration := Time.fin 2 }
      (Time.fin 5) h12 (by simp [ElementCommon.totalMargin])
  rw [h]
  norm_num [ElementCommon.totalMargin]

/-- C2 (amended): `sample_pulse_list` returns a vector of exactly `length`
samples when every pulse fits the buffer (aligned start within the
buffer; in the shapeless path the plateau does not extend past the end;
in the shaped path the envelope construction itself does not panic), and
a pulse whose aligned start index equals `length` contributes nothing.
Outside these conditions the function panics — the original claim's
"silently clipped, never aborts" fails; see
`samplePulseList_aborts_counterexample`.  (Partial overflow is clipped
only in the shaped path, by the lockstep `izip`.) -/
theorem samplePulseList_clip_behavior
    (tau : ℚ) (rcos rsin : ℚ → ℚ) (shapeFn : Shape → ℚ → ℚ)
    (list : List (ListBin × List (ℚ × PulseAmplitude))) (length : ℕ)
    (sampleRate delay : ℚ) (alignLevel : ℤ)
    (hfit : ∀ bi ∈ list, ∀ tp ∈ bi.2,
      entryFits shapeFn sampleRate delay alignLevel bi.1 length tp.1) :
    (∃ out, samplePulseList tau rcos rsin shapeFn list length sampleRate delay alignLevel =
        some out ∧ out.length = length)
    ∧ (∀ (bin : ListBin) (waveform : List Cplx) (time : ℚ) (pa : PulseAmplitude),
        (alignedCeil (time + delay) sampleRate alignLevel).toNat = waveform.length →
        entryFits shapeFn sampleRate delay alignLevel bin waveform.length time →
        sampleEntry tau rcos rsin shapeFn sampleRate delay alignLevel bin waveform time pa =
          some waveform) := by
  constructor
  · rcases sampleBins_fits tau rcos rsin shapeFn sampleRate delay alignLevel list
        (List.replicate length 0)
        (by simpa using hfit) with ⟨out, hout, hlen⟩
    exact ⟨out, by rw [samplePulseList]; exact hout, by simpa using hlen⟩
  · intro bin waveform time pa hidx ⟨hle, hrest⟩
    rw [sampleEntry, if_pos (by rw [hidx])]
    have hsuffix : waveform.drop (alignedCeil (time + delay) sampleRate alignLevel).toNat =
        [] := by
      rw [hidx, List.drop_length]
    have htake : waveform.take (alignedCeil (time + delay) sampleRate alignLevel).toNat =
        waveform := by
      rw [hidx, List.take_length]
    cases hsh : bin.envelope.shape with
    | some shape =>
      rw [hsh] at hrest
      simp only
      cases henv : getEnvelope shapeFn shape bin.envelope.width.toRat
          bin.envelope.plateau.toRat
          (alignedIndexOffset (time + delay) sampleRate alignLevel) sampleRate with
      | none => exact absurd henv hrest
      | some env =>
        rw [hsuffix, htake]
        simp [mixAddEnvelope]
    | none =>
      rw [hsh] at hrest
      simp only
      rw [hidx] at hrest
      have hplateau : (⌈bin.envelope.plateau.toRat * sampleRate⌉).toNat = 0 := by omega
      rw [hsuffix, hplateau]
      simp [mixAddPlateau, mixAddPlateauGo, htake]

/-- Witness for `samplePulseList_clip_behavior`: a unit plateau pulse at
`t = 0` in a buffer of two samples at rate 1 is sampled successfully into
exactly two samples. -/
theorem samplePulseList_clip_behavior_witness :
    (samplePulseList 0 (fun _ => 1) (fun _ => 0) (fun _ _ => 0)
        [(⟨⟨none, Time.fin 0, Time.fin 1⟩, 0, 0⟩, [(0, ⟨⟨1, 0⟩, ⟨0, 0⟩⟩)])]
        2 1 0 0).isSome = true
    ∧ ((samplePulseList 0 (fun _ => 1) (fun _ => 0) (fun _ _ => 0)
        [(⟨⟨none, Time.fin 0, Time.fin 1⟩, 0, 0⟩, [(0, ⟨⟨1, 0⟩, ⟨0, 0⟩⟩)])]
        2 1 0 0).getD []).length = 2 := by
  have hfit : ∀ bi ∈ [((⟨⟨none, Time.fin 0, Time.fin 1⟩, 0, 0⟩ : ListBin),
      [((0 : ℚ), (⟨⟨1, 0⟩, ⟨0, 0⟩⟩ : PulseAmplitude))])], ∀ tp ∈ bi.2,
      entryFits (fun _ _ => 0) 1 0 0 bi.1 2 tp.1 := by
    intro bi hbi tp htp
    simp at hbi
    subst hbi
    simp at htp
    subst htp
    constructor
    · simp [alignedCeil, alignedValue]
    · simp [Time.toRat, alignedCeil, alignedValue]
  rcases (samplePulseList_clip_behavior 0 (fun _ => 1) (fun _ => 0) (fun _ _ => 0)
      [(⟨⟨none, Time.fin 0, Time.fin 1⟩, 0, 0⟩, [(0, ⟨⟨1, 0⟩, ⟨0, 0⟩⟩)])]
      2 1 0 0 hfit).1 with ⟨out, hout, hlen⟩
  rw [hout]
  exact ⟨rfl, by simpa using hlen⟩

/-- C2 counterexample: the original claim's "for every pulse list and
buffer length the function returns exactly `length` samples without
aborting, clipping out-of-range writes" is false — a unit-amplitude
plateau pulse of two samples into a one-sample buffer panics (the
shapeless path slices `waveform[..i_plateau]` out of range), and a pulse
whose aligned start index `5` exceeds the buffer length `1` panics
(`waveform[i_start..]` out of range) instead of contributing nothing. -/
theorem samplePulseList_aborts_counterexample :
    samplePulseList 0 (fun _ => 1) (fun _ => 0) (fun _ _ => 0)
      [(⟨⟨none, Time.fin 0, Time.fin 2⟩, 0, 0⟩, [(0, ⟨⟨1, 0⟩, ⟨0, 0⟩⟩)])] 1 1 0 0 = none
    ∧ samplePulseList 0 (fun _ => 1) (fun _ => 0) (fun _ _ => 0)
      [(⟨⟨none, Time.fin 0, Time.fin 0⟩, 0, 0⟩, [(5, ⟨⟨1, 0⟩, ⟨0, 0⟩⟩)])] 1 1 0 0 = none := by
  constructor
  · rw [samplePulseList, sampleBins, sampleItems, sampleEntry]
    simp [alignedCeil, alignedValue, Time.toRat]
  · rw [samplePulseList, sampleBins, sampleItems, sampleEntry]
    simp [alignedCeil, alignedValue, Time.toRat]

/-- C7 (amended): with every channel name unique, every built pulse list
having distinct bins, and no two adjacent entries of a bin within
`time_tolerance` (as the builder guarantees when its tolerance is at
least the sampler's), sampling with the identity crosstalk matrix (names
matching the channels; with distinct names `if nc.1 = nc'.1` holds
exactly on the diagonal, so the matrix below is `k·I`) equals sampling
with no crosstalk, and sampling with `2·I` yields exactly twice every
no-crosstalk sample.  Without the separation proviso the crosstalk path
re-coalesces entries that the plain path leaves apart and the outputs can
differ; see `sample_crosstalk_identity_counterexample`. -/
theorem sample_crosstalk_identity_linear
    (tau : ℚ) (rcos rsin : ℚ → ℚ) (shapeFn : Shape → ℚ → ℚ)
    (chs : List (ChannelId × Channel)) (timeTolerance : ℚ)
    (hnd : (chs.map (·.1)).Nodup)
    (hbins : ∀ nc ∈ chs, (nc.2.pulses.items.map (·.1)).Nodup)
    (hsep : ∀ nc ∈ chs, ∀ bi ∈ nc.2.pulses.items,
      List.Chain' (fun x y => ¬ approxEq x.1 y.1 timeTolerance) bi.2) :
    Sampler.sample tau rcos rsin shapeFn
        ⟨chs, some ⟨chs.map fun nc => chs.map fun nc' => if nc.1 = nc'.1 then (1 : ℚ) else 0,
          chs.map (·.1)⟩⟩ timeTolerance =
      Sampler.sample tau rcos rsin shapeFn ⟨chs, none⟩ timeTolerance
    ∧ Sampler.sample tau rcos rsin shapeFn
        ⟨chs, some ⟨chs.map fun nc => chs.map fun nc' => if nc.1 = nc'.1 then (2 : ℚ) else 0,
          chs.map (·.1)⟩⟩ timeTolerance =
      some (chs.map fun nc => (nc.1,
        (samplePulseList tau rcos rsin shapeFn nc.2.pulses.items nc.2.length nc.2.sampleRate
          nc.2.delay nc.2.alignLevel).map (List.map (Cplx.scale 2)))) := by
  have hgen : ∀ k : ℚ, k ≠ 0 → Sampler.sample tau rcos rsin shapeFn
      ⟨chs, some ⟨chs.map fun nc => chs.map fun nc' => if nc.1 = nc'.1 then k else 0,
        chs.map (·.1)⟩⟩ timeTolerance =
      some (chs.map fun nc => (nc.1,
        (samplePulseList tau rcos rsin shapeFn nc.2.pulses.items nc.2.length nc.2.sampleRate
          nc.2.delay nc.2.alignLevel).map (List.map (Cplx.scale k)))) := by
    intro k hk
    simp only [Sampler.sample]
    rw [List.zip_map']
    exact sampleRows_delta tau rcos rsin shapeFn chs timeTolerance k hk hnd hbins hsep chs
      (fun _ h => h)
  constructor
  · rw [hgen 1 one_ne_zero]
    simp only [Sampler.sample]
    congr 1
    refine List.map_congr_left ?_
    intro nc _
    congr 1
    cases samplePulseList tau rcos rsin shapeFn nc.2.pulses.items nc.2.length nc.2.sampleRate
        nc.2.delay nc.2.alignLevel with
    | none => rfl
    | some l =>
      simp only [Option.map_some']
      exact congrArg some
        ((List.map_congr_left fun x _ => Cplx.scale_one x).trans (List.map_id l))
  · exact hgen 2 two_ne_zero

/-- Witness for `sample_crosstalk_identity_linear` at a one-channel
sampler with an empty pulse list. -/
theorem sample_crosstalk_identity_linear_witness :
    Sampler.sample 0 (fun _ => 1) (fun _ => 0) (fun _ _ => 0)
        ⟨[(0, c7EmptyChannel)],
          some ⟨[(0, c7EmptyChannel)].map fun nc => [(0, c7EmptyChannel)].map fun nc' =>
              if nc.1 = nc'.1 then (1 : ℚ) else 0,
            [(0, c7EmptyChannel)].map (·.1)⟩⟩ 0 =
      Sampler.sample 0 (fun _ => 1) (fun _ => 0) (fun _ _ => 0)
        ⟨[(0, c7EmptyChannel)], none⟩ 0 :=
  (sample_crosstalk_identity_linear 0 (fun _ => 1) (fun _ => 0) (fun _ _ => 0)
    [(0, c7EmptyChannel)] 0 (by simp)
    (by
      intro nc h
      rcases List.mem_singleton.mp h with rfl
      exact List.nodup_nil)
    (by
      intro nc h bi hbi
      rcases List.mem_singleton.mp h with rfl
      exact absurd hbi (List.not_mem_nil bi))).1

/-- C7 counterexample: with `time_tolerance = 2` (larger than the 1-sample
gap between the channel's two entries), sampling through the identity
crosstalk matrix re-coalesces the two entries into one pulse of doubled
amplitude at `t = 0`, while the no-crosstalk path renders them at indices
0 and 1 — the outputs differ, so the claim does not hold for every
`time_tolerance`. -/
theorem sample_crosstalk_identity_counterexample :
    Sampler.sample 0 (fun _ => 1) (fun _ => 0) (fun _ _ => 0)
        ⟨[(0, c7Channel)], some ⟨[[1]], [0]⟩⟩ 2 ≠
      Sampler.sample 0 (fun _ => 1) (fun _ => 0) (fun _ _ => 0)
        ⟨[(0, c7Channel)], none⟩ 2 := by
  have hleft : Sampler.sample 0 (fun _ => 1) (fun _ => 0) (fun _ _ => 0)
      ⟨[(0, c7Channel)], some ⟨[[1]], [0]⟩⟩ 2 =
      some [(0, some [⟨2, 0⟩, 0, 0])] := by
    simp only [Sampler.sample, c7Channel]
    norm_num [sampleRows, lookupChannel, collectLists, mergeAndSample, entryPushIter,
      scaleItems, PulseAmplitude.mulF, Cplx.scale, kmergeBy, kmergeGo, pickMin, coalesce,
      coalesceGo, approxEq, samplePulseList, sampleBins, sampleItems, sampleEntry,
      alignedCeil, alignedValue, alignedIndexOffset, Time.toRat, mixAddPlateau,
      mixAddPlateauGo, fromPolar]
    exact ⟨⟨rfl, rfl⟩, rfl⟩
  have hright : Sampler.sample 0 (fun _ => 1) (fun _ => 0) (fun _ _ => 0)
      ⟨[(0, c7Channel)], none⟩ 2 =
      some [(0, some [⟨1, 0⟩, ⟨1, 0⟩, 0])] := by
    simp only [Sampler.sample, c7Channel]
    norm_num [samplePulseList, sampleBins, sampleItems, sampleEntry, alignedCeil,
      alignedValue, alignedIndexOffset, Time.toRat, mixAddPlateau, mixAddPlateauGo,
      fromPolar]
    exact ⟨rfl, rfl⟩
  rw [hleft, hright]
  simp [Cplx.ext_iff]

/-- C3: whatever was pushed into a `PulseListBuilder` (the theorem
quantifies over every builder state, hence over every sequence of `push`
calls), after `build()` every bin's entries are in strictly ascending
time order with every pair (not only consecutive ones) more than
`time_tolerance` apart, and entries within the tolerance have been merged
by summation: the bin's total `PulseAmplitude` sum is preserved. -/
theorem build_coalesces (b : PulseListBuilder) (htol : 0 ≤ b.timeTolerance) :
    ∀ bv ∈ b.build.items,
      bv.2.Pairwise (fun x y => x.1 < y.1 ∧ ¬ approxEq x.1 y.1 b.timeTolerance)
      ∧ ∃ orig, (bv.1, orig) ∈ b.items ∧ sumAmps bv.2 = sumAmps orig := by
  intro bv hbv
  rw [PulseListBuilder.build] at hbv
  rcases List.mem_map.mp hbv with ⟨⟨bin, pulses⟩, hmem, heq⟩
  subst heq
  constructor
  · exact coalesce_pairwise _ htol _ (mergeSort_byTime_pairwise pulses)
  · refine ⟨pulses, hmem, ?_⟩
    rw [coalesce_sum]
    exact sumAmps_perm (List.mergeSort_perm pulses _)

/-- Witness for `build_coalesces` at the concrete builder `c3Builder`. -/
theorem build_coalesces_witness :
    (0 : ℚ) ≤ c3Builder.timeTolerance
    ∧ (c3Bin, [((0 : ℚ), (⟨⟨1, 0⟩, ⟨0, 0⟩⟩ : PulseAmplitude))]) ∈ c3Builder.build.items
    ∧ [((0 : ℚ), (⟨⟨1, 0⟩, ⟨0, 0⟩⟩ : PulseAmplitude))].Pairwise
        (fun x y => x.1 < y.1 ∧ ¬ approxEq x.1 y.1 c3Builder.timeTolerance)
    ∧ ∃ orig, (c3Bin, orig) ∈ c3Builder.items
        ∧ sumAmps [((0 : ℚ), (⟨⟨1, 0⟩, ⟨0, 0⟩⟩ : PulseAmplitude))] = sumAmps orig := by
  have hmem : (c3Bin, [((0 : ℚ), (⟨⟨1, 0⟩, ⟨0, 0⟩⟩ : PulseAmplitude))]) ∈ c3Builder.build.items := by
    simp [c3Builder, PulseListBuilder.build, coalesce, coalesceGo]
  have htol : (0 : ℚ) ≤ c3Builder.timeTolerance := by norm_num [c3Builder]
  have h := build_coalesces c3Builder htol _ hmem
  exact ⟨htol, hmem, h.1, h.2⟩

/-- C5: `measure_stack` behaves as the claim describes: children are
traversed in the direction's order maintaining per-channel usage; each
child's offset is the maximum recorded usage over its channels (over all
channels when it declares none, `0` when nothing relevant is recorded);
the usage of each affected channel (all of the stack's channels when the
child declares none) becomes `offset + child duration`; the total
duration is the maximum final usage (a single scalar when the stack's
channel set is empty).  Stated as equality with `specMeasureStack`, the
direct transcription of the claim.  The hypothesis — every child's
channels belong to the stack's channel set — is guaranteed by
`Stack::with_children`, which computes the set as the union of the
children's channels. -/
theorem measureStack_matches_spec (children : List Child) (channels : List ChannelId)
    (direction : Direction)
    (hsub : ∀ child ∈ children, ∀ c ∈ child.channels, c ∈ channels) :
    measureStack children channels direction = specMeasureStack children channels direction := by
  by_cases hch : channels.isEmpty
  · -- the stack's channel set is empty: usage is a single scalar
    have hnew : Helper.new channels = ⟨channels, .single Time.ZERO⟩ := by
      rw [Helper.new, if_pos hch]
    have hrel := mapAndCollect_rel
      (fun (h : Helper) (u : Time) => h = ⟨channels, .single u⟩)
      (fun _ : Child => True)
      (fun child helper =>
        (Helper.getUsage helper child.channels,
         Helper.updateUsage helper (Helper.getUsage helper child.channels + child.measure)
           child.channels))
      (fun (child : Child) (u : Time) => (u, u + child.measure))
      (fun a s1 s2 _ hR => by subst hR; exact ⟨rfl, rfl⟩)
      direction children (Helper.new channels) Time.ZERO (fun _ _ => trivial) hnew
    calc measureStack children channels direction
        = ((mapAndCollectByDirection
              (fun child helper =>
                (Helper.getUsage helper child.channels,
                 Helper.updateUsage helper
                   (Helper.getUsage helper child.channels + child.measure) child.channels))
              direction children (Helper.new channels)).2.intoMaxUsage,
           (mapAndCollectByDirection
              (fun child helper =>
                (Helper.getUsage helper child.channels,
                 Helper.updateUsage helper
                   (Helper.getUsage helper child.channels + child.measure) child.channels))
              direction children (Helper.new channels)).1) := rfl
      _ = ((mapAndCollectByDirection (fun (child : Child) (u : Time) => (u, u + child.measure))
              direction children Time.ZERO).2,
           (mapAndCollectByDirection (fun (child : Child) (u : Time) => (u, u + child.measure))
              direction children Time.ZERO).1) := by
            rw [hrel.1, hrel.2]
            rfl
      _ = specMeasureStack children channels direction := by
            rw [specMeasureStack, if_pos hch]
  · -- per-channel usage map
    have hnew : (fun (h : Helper) (u : ChannelId → Option Time) => ∃ d,
          h = ⟨channels, .multiple d⟩ ∧ (d.map (·.1)).Nodup ∧
          (∀ c, (usageLookup d c).isSome = true → c ∈ channels) ∧ u = usageLookup d)
        (Helper.new channels) (fun _ => none) := by
      refine ⟨[], by rw [Helper.new, if_neg hch], by simp, ?_, ?_⟩
      · intro c hc
        simp [usageLookup] at hc
      · funext c
        rfl
    have hrel := mapAndCollect_rel
      (fun (h : Helper) (u : ChannelId → Option Time) => ∃ d,
        h = ⟨channels, .multiple d⟩ ∧ (d.map (·.1)).Nodup ∧
        (∀ c, (usageLookup d c).isSome = true → c ∈ channels) ∧ u = usageLookup d)
      (fun child : Child => ∀ c ∈ child.channels, c ∈ channels)
      (fun child helper =>
        (Helper.getUsage helper child.channels,
         Helper.updateUsage helper (Helper.getUsage helper child.channels + child.measure)
           child.channels))
      (fun (child : Child) (usage : ChannelId → Option Time) =>
        (((if child.channels.isEmpty then channels else child.channels).filterMap
            usage).max?.getD Time.ZERO,
         fun c => if c ∈ (if child.channels.isEmpty then channels else child.channels) then
             some ((((if child.channels.isEmpty then channels else
               child.channels).filterMap usage).max?.getD Time.ZERO) + child.measure)
           else usage c))
      (fun a s1 s2 hPa hR => by
        rcases hR with ⟨d, rfl, hnd, hdom, rfl⟩
        have hoff : Helper.getUsage ⟨channels, .multiple d⟩ a.channels =
            ((if a.channels.isEmpty then channels else a.channels).filterMap
              (usageLookup d)).max?.getD Time.ZERO := by
          simp only [Helper.getUsage]
          by_cases hae : a.channels.isEmpty
          · rw [if_pos hae, if_pos hae]
            congr 1
            exact max?_mem_congr (values_mem_filterMap channels d hnd hdom)
          · rw [if_neg hae, if_neg hae]
        refine ⟨hoff, ?_⟩
        refine ⟨(if a.channels.isEmpty then channels else a.channels).foldl
            (fun acc ch => usageInsert acc ch
              (Helper.getUsage ⟨channels, .multiple d⟩ a.channels + a.measure)) d,
          rfl, ?_, ?_, ?_⟩
        · exact foldl_insert_keys_nodup _ d _ hnd
        · intro c hc
          rw [usageLookup_foldl_insert] at hc
          by_cases hcq : c ∈ (if a.channels.isEmpty then channels else a.channels)
          · by_cases hae : a.channels.isEmpty
            · rw [if_pos hae] at hcq
              exact hcq
            · rw [if_neg hae] at hcq
              exact hPa c hcq
          · rw [if_neg hcq] at hc
            exact hdom c hc
        · funext c
          rw [usageLookup_foldl_insert, hoff])
      direction children (Helper.new channels) (fun _ => none) hsub hnew
    rcases hrel.2 with ⟨dfin, hfin, hndfin, hdomfin, hufin⟩
    calc measureStack children channels direction
        = ((mapAndCollectByDirection
              (fun child helper =>
                (Helper.getUsage helper child.channels,
                 Helper.updateUsage helper
                   (Helper.getUsage helper child.channels + child.measure) child.channels))
              direction children (Helper.new channels)).2.intoMaxUsage,
           (mapAndCollectByDirection
              (fun child helper =>
                (Helper.getUsage helper child.channels,
                 Helper.updateUsage helper
                   (Helper.getUsage helper child.channels + child.measure) child.channels))
              direction children (Helper.new channels)).1) := rfl
      _ = (((channels.filterMap (mapAndCollectByDirection
              (fun (child : Child) (usage : ChannelId → Option Time) =>
                (((if child.channels.isEmpty then channels else child.channels).filterMap
                    usage).max?.getD Time.ZERO,
                 fun c => if c ∈ (if child.channels.isEmpty then channels else
                     child.channels) then
                     some ((((if child.channels.isEmpty then channels else
                       child.channels).filterMap usage).max?.getD Time.ZERO) + child.measure)
                   else usage c))
              direction children (fun _ => none)).2).max?).getD Time.ZERO,
           (mapAndCollectByDirection
              (fun (child : Child) (usage : ChannelId → Option Time) =>
                (((if child.channels.isEmpty then channels else child.channels).filterMap
                    usage).max?.getD Time.ZERO,
                 fun c => if c ∈ (if child.channels.isEmpty then channels else
                     child.channels) then
                     some ((((if child.channels.isEmpty then channels else
                       child.channels).filterMap usage).max?.getD Time.ZERO) + child.measure)
                   else usage c))
              direction children (fun _ => none)).1) := by
            rw [hrel.1, hfin, hufin]
            simp only [Helper.intoMaxUsage]
            rw [max?_mem_congr (values_mem_filterMap channels dfin hndfin hdomfin)]
      _ = specMeasureStack children channels direction := by
            rw [specMeasureStack, if_neg hch]

/-- Witness for `measureStack_matches_spec` at a concrete two-child,
two-channel backward stack. -/
theorem measureStack_matches_spec_witness :
    measureStack [⟨Time.fin 1, [0]⟩, ⟨Time.fin 2, [0, 1]⟩] [0, 1] .backward =
      specMeasureStack [⟨Time.fin 1, [0]⟩, ⟨Time.fin 2, [0, 1]⟩] [0, 1] .backward :=
  measureStack_matches_spec _ _ _ (by decide)

/-- C6: when a stack is arranged, a `Forward` child is placed at its
measured offset and a `Backward` child at
`final_duration - measured_offset - measured_duration`, each with its
measured duration, in the children's listed order; and
`map_and_collect_by_direction` restores the original order after a
backward traversal (so measured offsets are also collected in the listed
order — one offset per child). -/
theorem arrangeStack_placement_and_order :
    (∀ (children : List (Child × Time)) (finalDuration : Time) (direction : Direction),
      arrangeStack children finalDuration direction =
        children.map fun co =>
          (co.1,
           (match direction with
            | .forward => co.2
            | .backward => finalDuration - co.2 - co.1.measure),
           co.1.measure))
    ∧ (∀ (σ α β : Type) (f : α → β) (direction : Direction) (l : List α) (s : σ),
        mapAndCollectByDirection (fun a s => (f a, s)) direction l s = (l.map f, s))
    ∧ (∀ (children : List Child) (channels : List ChannelId) (direction : Direction),
        (measureStack children channels direction).2.length = children.length) := by
  refine ⟨fun _ _ _ => rfl, ?_, ?_⟩
  · intro σ α β f direction l s
    cases direction with
    | forward => exact mapState_stateless f l s
    | backward =>
      simp only [mapAndCollectByDirection, mapState_stateless]
      simp
  · intro children channels direction
    show (mapAndCollectByDirection _ direction children (Helper.new channels)).1.length = _
    cases direction with
    | forward => exact mapState_length _ children _
    | backward =>
      simp only [mapAndCollectByDirection]
      rw [List.length_reverse, mapState_length, List.length_reverse]

/-- C4: with `allow_oversize = false`, the `arrange` wrapper fails with the
oversize error exactly when `duration < unclipped_duration -
time_tolerance` or `inner_duration + total_margin < unclipped_duration -
time_tolerance`, where `inner_duration = clamp(max(0, duration -
total_margin), min_d, max_d)`; with `allow_oversize = true` it never
produces that error (assuming the variant's own arrange does not). -/
theorem arrange_oversize_iff
    (measured : MeasuredElement) (common : ElementCommon) (time duration : Time)
    (options : ScheduleOptions) (va : Time → Except ArrangeErr Time)
    (hva : ∀ t, va t ≠ .error .oversize)
    (ht : (time + common.margin.1).isFinite = true) :
    arrange measured common time duration options va = .error .oversize ↔
      options.allowOversize = false ∧
        (duration < measured.unclippedDuration - options.timeTolerance ∨
          clampDuration (max (duration - common.totalMargin) Time.ZERO)
              common.clampMinMaxDuration.1 common.clampMinMaxDuration.2
            + common.totalMargin
            < measured.unclippedDuration - options.timeTolerance) := by
  simp only [arrange]
  by_cases h1 : duration < measured.unclippedDuration - options.timeTolerance ∧
      options.allowOversize = false
  · simp only [if_pos h1]
    exact iff_of_true (by trivial) ⟨h1.2, Or.inl h1.1⟩
  · simp only [if_neg h1, ht]
    by_cases h2 : clampDuration (max (duration - common.totalMargin) Time.ZERO)
          common.clampMinMaxDuration.1 common.clampMinMaxDuration.2
        + common.totalMargin < measured.unclippedDuration - options.timeTolerance ∧
        options.allowOversize = false
    · simp only [if_pos h2, if_neg (by simp : ¬ (true = false))]
      exact iff_of_true (by trivial) ⟨h2.2, Or.inr h2.1⟩
    · simp only [if_neg h2, if_neg (by simp : ¬ (true = false))]
      have hrhs : ¬ (options.allowOversize = false ∧
          (duration < measured.unclippedDuration - options.timeTolerance ∨
            clampDuration (max (duration - common.totalMargin) Time.ZERO)
                common.clampMinMaxDuration.1 common.clampMinMaxDuration.2
              + common.totalMargin
              < measured.unclippedDuration - options.timeTolerance)) := by
        rintro ⟨hallow, hc1 | hc2⟩
        · exact h1 ⟨hc1, hallow⟩
        · exact h2 ⟨hc2, hallow⟩
      refine iff_of_false ?_ hrhs
      intro hmatch
      split at hmatch
      next e heq =>
        cases hmatch
        exact hva _ heq
      next r heq => exact Except.noConfusion hmatch

/-- Witness for `arrange_oversize_iff`: a measured element with unclipped
duration `5` arranged into a slot of duration `3` with zero tolerance and
`allow_oversize = false` fails with the oversize error. -/
theorem arrange_oversize_iff_witness :
    (Time.fin 3 < Time.fin 5 - Time.fin 0)
    ∧ arrange { unclippedDuration := Time.fin 5, duration := Time.fin 5 }
        { margin := (Time.fin 0, Time.fin 0), alignment := .end', phantom := false,
          duration := none, maxDuration := Time.INFINITY, minDuration := Time.fin 0 }
        (Time.fin 0) (Time.fin 3) { timeTolerance := Time.fin 0, allowOversize := false }
        (fun t => .ok t) = .error .oversize := by
  have hlt : Time.fin 3 < Time.fin 5 - Time.fin 0 := by norm_num [Time.fin_lt_fin]
  refine ⟨hlt, ?_⟩
  exact (arrange_oversize_iff _ _ _ _ _ _ (fun t => by simp)
    (by simp [ElementCommon.totalMargin])).mpr ⟨rfl, Or.inl hlt⟩

end PulseGen
